import Mathlib

/-!
Shallow embedding of the SIP grammar engine of the `sipgo` repository
(ordered parameter map, SIP/SIPS and TEL URI finite-state parsers,
name-address parser, renderers), together with theorems settling the
specification claims about it.

Strings are modelled as lists of characters (`Str`).  The Go code iterates
runes with byte indices; on the ASCII data this grammar manipulates the two
coincide, so character indices are used throughout.
-/

set_option maxHeartbeats 1000000

abbrev Str := List Char

def str (s : String) : Str := s.data

/-- Split a character list at the first character satisfying `p`:
the prefix before it, the character itself, and the remainder.
`none` when no character satisfies `p`.  This models the Go pattern
`for i, c := range s` acting at the first special character. -/
def breakAt (p : Char → Bool) : Str → Option (Str × Char × Str)
  | [] => none
  | c :: t =>
    if p c then some ([], c, t)
    else
      match breakAt p t with
      | none => none
      | some (pre, d, post) => some (c :: pre, d, post)

/-- Index of the last occurrence of `c` (the Go loop `if c == ':' then
userend = i` keeps the last index seen). -/
def lastIdxOf (c : Char) : Str → Option Nat
  | [] => none
  | d :: t =>
    match lastIdxOf c t with
    | some i => some (i + 1)
    | none => if d = c then some 0 else none

/-- Index of the first occurrence of `c` (`strings.Index` for a
one-character needle; `none` models the Go result `-1`). -/
def indexOfCh (c : Char) : Str → Option Nat
  | [] => none
  | d :: t => if d = c then some 0 else (indexOfCh c t).map (· + 1)

theorem breakAt_eq_none (p : Char → Bool) (s : Str) (h : ∀ c ∈ s, ¬ p c) :
    breakAt p s = none := by
  induction s with
  | nil => rfl
  | cons c t ih =>
    simp only [breakAt]
    rw [if_neg (h c (List.mem_cons_self c t))]
    rw [ih (fun d hd => h d (List.mem_cons_of_mem c hd))]

theorem breakAt_append (p : Char → Bool) (xs : Str) (c : Char) (ys : Str)
    (hxs : ∀ d ∈ xs, ¬ p d) (hc : p c) :
    breakAt p (xs ++ c :: ys) = some (xs, c, ys) := by
  induction xs with
  | nil => simp [breakAt, hc]
  | cons d t ih =>
    simp only [List.cons_append, breakAt, List.append_eq]
    rw [if_neg (hxs d (List.mem_cons_self d t))]
    rw [ih (fun e he => hxs e (List.mem_cons_of_mem d he))]

theorem breakAt_some (p : Char → Bool) (s : Str) (pre : Str) (c : Char) (post : Str)
    (h : breakAt p s = some (pre, c, post)) :
    s = pre ++ c :: post ∧ p c ∧ ∀ d ∈ pre, ¬ p d := by
  induction s generalizing pre with
  | nil => simp [breakAt] at h
  | cons d t ih =>
    simp only [breakAt] at h
    by_cases hd : p d
    · rw [if_pos hd] at h
      simp only [Option.some.injEq, Prod.mk.injEq] at h
      obtain ⟨h1, h2, h3⟩ := h
      subst h1 h2 h3
      exact ⟨rfl, hd, by simp⟩
    · rw [if_neg hd] at h
      cases hbt : breakAt p t with
      | none => rw [hbt] at h; simp at h
      | some v =>
        obtain ⟨pre', c', post'⟩ := v
        rw [hbt] at h
        simp only [Option.some.injEq, Prod.mk.injEq] at h
        obtain ⟨h1, h2, h3⟩ := h
        subst h2
        subst h3
        obtain ⟨hs, hc, hpre⟩ := ih pre' hbt
        subst h1
        refine ⟨by rw [hs]; simp, hc, ?_⟩
        intro e he
        rcases List.mem_cons.mp he with he | he
        · subst he; exact hd
        · exact hpre e he

theorem lastIdxOf_eq_none (c : Char) (s : Str) (h : c ∉ s) :
    lastIdxOf c s = none := by
  induction s with
  | nil => rfl
  | cons d t ih =>
    simp only [lastIdxOf]
    rw [ih (fun hm => h (List.mem_cons_of_mem d hm))]
    simp only []
    rw [if_neg (fun hd => h (by rw [hd]; exact List.mem_cons_self c t))]

theorem lastIdxOf_append (c : Char) (xs ys : Str) (hys : c ∉ ys) :
    lastIdxOf c (xs ++ c :: ys) = some xs.length := by
  induction xs with
  | nil =>
    simp [List.nil_append, lastIdxOf, lastIdxOf_eq_none c ys hys]
  | cons d t ih =>
    simp only [List.cons_append, lastIdxOf, List.append_eq, ih, List.length_cons]

theorem indexOfCh_eq_none (c : Char) (s : Str) (h : c ∉ s) :
    indexOfCh c s = none := by
  induction s with
  | nil => rfl
  | cons d t ih =>
    simp only [indexOfCh]
    rw [if_neg (fun hd => h (by rw [← hd]; exact List.mem_cons_self d t))]
    rw [ih (fun hm => h (List.mem_cons_of_mem d hm))]
    rfl

theorem indexOfCh_append (c : Char) (xs ys : Str) (hxs : c ∉ xs) :
    indexOfCh c (xs ++ c :: ys) = some xs.length := by
  induction xs with
  | nil => simp [indexOfCh]
  | cons d t ih =>
    simp only [List.cons_append, indexOfCh, List.append_eq]
    rw [if_neg (fun hd => hxs (by rw [hd]; exact List.mem_cons_self c t))]
    rw [ih (fun hm => hxs (List.mem_cons_of_mem d hm))]
    simp [List.length_cons]

/-! ## The ordered parameter map (`header_params.go`) -/

/-- Key/value pair (`Pair`); the value may be empty (`;lr`-style params). -/
structure Pair where
  Key : Str
  Val : Str
deriving DecidableEq

def defaultPair : Pair := ⟨[], []⟩

/-- `HeaderParams`: insertion-ordered key/value store, a vector of pairs
(`data`) plus an index from key to position (`keys`).  The Go
`map[string]int` is modelled as an association list; every operation of the
source uses it in a way whose result is insensitive to map iteration
order. -/
structure HeaderParams where
  keys : List (Str × Nat)
  data : List Pair
deriving DecidableEq

/-- Lookup in the modelled `map[string]int` (first matching entry). -/
def mapGet : List (Str × Nat) → Str → Option Nat
  | [], _ => none
  | e :: t, k => if e.1 = k then some e.2 else mapGet t k

/-- `NewParams()` creates an empty map. -/
def NewParams : HeaderParams := ⟨[], []⟩

/-- `Length()` is `len(hp.data)`. -/
def HeaderParams.Length (hp : HeaderParams) : Nat := hp.data.length

/-- `Get`: value plus presence flag; `("", false)` when the key is absent. -/
def HeaderParams.Get (hp : HeaderParams) (key : Str) : Str × Bool :=
  match mapGet hp.keys key with
  | none => ([], false)
  | some v => ((hp.data.getD v defaultPair).Val, true)

/-- `Has` -/
def HeaderParams.Has (hp : HeaderParams) (key : Str) : Bool :=
  (mapGet hp.keys key).isSome

/-- One step of `Add`: if the key exists its value is overwritten in place
(`hp.data[i].Val = p.Val`); otherwise the pair is appended and its position
recorded. -/
def HeaderParams.add1 (hp : HeaderParams) (p : Pair) : HeaderParams :=
  match mapGet hp.keys p.Key with
  | some i =>
      { hp with data := hp.data.set i ⟨(hp.data.getD i defaultPair).Key, p.Val⟩ }
  | none =>
      { keys := hp.keys ++ [(p.Key, hp.data.length)], data := hp.data ++ [p] }

/-- Variadic `Add(pair ...Pair)` folds `add1` over the arguments. -/
def HeaderParams.Add (hp : HeaderParams) (ps : List Pair) : HeaderParams :=
  ps.foldl HeaderParams.add1 hp

/-- `Remove`: no-op if absent; otherwise deletes the pair
(`append(hp.data[:i], hp.data[i+1:]...)`), drops the key from the index and
shifts every later position down by one. -/
def HeaderParams.Remove (hp : HeaderParams) (key : Str) : HeaderParams :=
  match mapGet hp.keys key with
  | none => hp
  | some i =>
      { keys := (hp.keys.filter (fun e => decide (¬ e.1 = key))).map
          (fun e => if e.2 > i then (e.1, e.2 - 1) else e),
        data := hp.data.take i ++ hp.data.drop (i + 1) }

/-- The key stored at position `i`: the map iteration of `Keys()` writes
`k[i] = key`; for well-formed maps exactly one entry carries position `i`.
A slot never written keeps the zero string. -/
def HeaderParams.keyAt (hp : HeaderParams) (i : Nat) : Str :=
  match hp.keys.find? (fun e => e.2 == i) with
  | some e => e.1
  | none => []

/-- `Keys()` returns the keys ordered by stored position. -/
def HeaderParams.Keys (hp : HeaderParams) : List Str :=
  (List.range hp.keys.length).map hp.keyAt

/-- The value at position `i` of the vector. -/
def HeaderParams.valAt (hp : HeaderParams) (i : Nat) : Str :=
  (hp.data.getD i defaultPair).Val

/-- Render one pair as `key` or `key=value`, preceded by the separator. -/
def pairChunk (sep : Char) (p : Pair) : Str :=
  sep :: p.Key ++ (if p.Val = [] then [] else '=' :: p.Val)

/-- The buffer built by `ToString` before the leading separator is cut. -/
def chunksFold (sep : Char) (ps : List Pair) : Str :=
  ps.foldl (fun acc p => acc ++ pairChunk sep p) []

/-- `ToString(sep)`: separator-prefixed chunks with the first separator
dropped (`buffer.String()[1:]`). -/
def HeaderParams.ToString (hp : HeaderParams) (sep : Char) : Str :=
  if hp.data = [] then [] else (chunksFold sep hp.data).drop 1

/-- One direction of the `Equals` check: every entry of `a.keys` must be
present in `b` at the same position with the same value. -/
def eqLoop (a b : HeaderParams) : Bool :=
  a.keys.all (fun e =>
    match mapGet b.keys e.1 with
    | none => false
    | some qv => decide (e.2 = qv) && decide (a.valAt e.2 = b.valAt qv))

/-- `Equals` on two non-nil maps: length check, empty shortcut, then the two
symmetric loops. -/
def HeaderParams.EqualsCore (hp o : HeaderParams) : Bool :=
  if hp.Length ≠ o.Length then false
  else if hp.Length = 0 then true
  else eqLoop hp o && eqLoop o hp

/-- `Equals` including the Go nil check: `o == nil` yields `false`. -/
def HeaderParams.Equals (hp : HeaderParams) (o : Option HeaderParams) : Bool :=
  match o with
  | none => false
  | some q => hp.EqualsCore q

/-- Well-formedness: the index agrees with the vector, vector keys are
distinct, the index has no duplicate keys and has one entry per position.
Every map reachable from `NewParams` through the exported operations
satisfies `Wf`. -/
def HeaderParams.Wf (hp : HeaderParams) : Prop :=
  (∀ e ∈ hp.keys, e.2 < hp.data.length ∧ (hp.data.getD e.2 defaultPair).Key = e.1) ∧
  (∀ i < hp.data.length, ((hp.data.getD i defaultPair).Key, i) ∈ hp.keys) ∧
  (hp.data.map Pair.Key).Nodup ∧
  (hp.keys.map Prod.fst).Nodup ∧
  hp.keys.length = hp.data.length

instance (hp : HeaderParams) : Decidable hp.Wf := by
  unfold HeaderParams.Wf
  infer_instance

/-! ### Basic facts about the modelled map -/

theorem mapGet_mem (m : List (Str × Nat)) (k : Str) (i : Nat)
    (h : mapGet m k = some i) : (k, i) ∈ m := by
  induction m with
  | nil => simp [mapGet] at h
  | cons e t ih =>
    simp only [mapGet] at h
    by_cases he : e.1 = k
    · rw [if_pos he] at h
      simp only [Option.some.injEq] at h
      apply List.mem_cons.mpr
      refine Or.inl ?_
      obtain ⟨a, b⟩ := e
      simp only at he h
      rw [he, h]
    · rw [if_neg he] at h
      exact List.mem_cons_of_mem e (ih h)

theorem mapGet_eq_none_iff (m : List (Str × Nat)) (k : Str) :
    mapGet m k = none ↔ k ∉ m.map Prod.fst := by
  induction m with
  | nil => simp [mapGet]
  | cons e t ih =>
    simp only [mapGet, List.map_cons, List.mem_cons]
    by_cases he : e.1 = k
    · rw [if_pos he]; simp [he]
    · rw [if_neg he]
      rw [ih]
      constructor
      · intro h hk
        rcases hk with hk | hk
        · exact he hk.symm
        · exact h hk
      · intro h hk
        exact h (Or.inr hk)

theorem mem_mapGet (m : List (Str × Nat)) (k : Str) (i : Nat)
    (hnd : (m.map Prod.fst).Nodup) (h : (k, i) ∈ m) : mapGet m k = some i := by
  induction m with
  | nil => simp at h
  | cons e t ih =>
    simp only [List.map_cons, List.nodup_cons] at hnd
    rcases List.mem_cons.mp h with h | h
    · subst h
      simp [mapGet]
    · simp only [mapGet]
      have he : ¬ e.1 = k := by
        intro hek
        exact hnd.1 (by rw [hek]; exact List.mem_map_of_mem Prod.fst h)
      rw [if_neg he]
      exact ih hnd.2 h

theorem Wf.mapGet_iff {hp : HeaderParams} (h : hp.Wf) (k : Str) (i : Nat) :
    mapGet hp.keys k = some i ↔
      i < hp.data.length ∧ (hp.data.getD i defaultPair).Key = k := by
  constructor
  · intro hm
    have := h.1 (k, i) (mapGet_mem _ _ _ hm)
    exact ⟨this.1, this.2⟩
  · rintro ⟨hi, hk⟩
    have := h.2.1 i hi
    rw [hk] at this
    exact mem_mapGet _ _ _ h.2.2.2.1 this

theorem Wf.mapGet_eq_none {hp : HeaderParams} (h : hp.Wf) (k : Str)
    (hk : k ∉ hp.data.map Pair.Key) : mapGet hp.keys k = none := by
  rw [mapGet_eq_none_iff]
  intro hmem
  obtain ⟨e, hem, hek⟩ := List.mem_map.mp hmem
  have := h.1 e hem
  apply hk
  rw [← hek, ← this.2]
  have hmem : (hp.data.getD e.2 defaultPair) ∈ hp.data := by
    rw [List.getD_eq_getElem hp.data defaultPair this.1]
    exact List.getElem_mem this.1
  exact List.mem_map_of_mem Pair.Key hmem

theorem find?_pos_unique (l : List (Str × Nat)) (i : Nat) (k : Str)
    (hmem : (k, i) ∈ l) (huniq : ∀ e ∈ l, e.2 = i → e = (k, i)) :
    l.find? (fun e => e.2 == i) = some (k, i) := by
  induction l with
  | nil => simp at hmem
  | cons e t ih =>
    simp only [List.find?]
    by_cases he : e.2 = i
    · rw [show (e.2 == i) = true from beq_iff_eq.mpr he]
      simp only [Option.some.injEq]
      exact huniq e (List.mem_cons_self e t) he
    · rw [show (e.2 == i) = false from beq_eq_false_iff_ne.mpr he]
      simp only [Bool.false_eq_true, if_false]
      have hmem' : (k, i) ∈ t := by
        rcases List.mem_cons.mp hmem with hm | hm
        · exfalso; apply he; rw [← hm]
        · exact hm
      exact ih hmem' (fun e' he' hi' => huniq e' (List.mem_cons_of_mem e he') hi')

theorem Wf.keyAt_eq {hp : HeaderParams} (h : hp.Wf) (i : Nat)
    (hi : i < hp.data.length) :
    hp.keyAt i = (hp.data.getD i defaultPair).Key := by
  unfold HeaderParams.keyAt
  have hmem := h.2.1 i hi
  have huniq : ∀ e ∈ hp.keys, e.2 = i → e = ((hp.data.getD i defaultPair).Key, i) := by
    intro e hem hei
    have h1 := h.1 e hem
    have h2 := h1.2
    rw [hei] at h2
    obtain ⟨k1, k2⟩ := e
    simp only at hei h2
    rw [hei, ← h2]
  rw [find?_pos_unique hp.keys i _ hmem huniq]

theorem Wf.Keys_eq {hp : HeaderParams} (h : hp.Wf) :
    hp.Keys = hp.data.map Pair.Key := by
  unfold HeaderParams.Keys
  rw [h.2.2.2.2]
  apply List.ext_getElem
  · simp
  · intro i h1 h2
    simp only [List.getElem_map, List.getElem_range]
    rw [Wf.keyAt_eq h]
    · rw [List.getD_eq_getElem]
    · simpa using h1

/-! ### Small list helpers -/

theorem list_set_getD_self {α : Type} (l : List α) (i : Nat) (d : α) :
    l.set i (l.getD i d) = l := by
  induction l generalizing i with
  | nil => rfl
  | cons a t ih =>
    cases i with
    | zero => simp [List.getD]
    | succ n =>
      simp only [List.getD_cons_succ, List.set_cons_succ]
      rw [ih n]

theorem getD_set_self {α : Type} (l : List α) (i : Nat) (a d : α)
    (h : i < l.length) : (l.set i a).getD i d = a := by
  rw [List.getD_eq_getElem _ _ (by simpa using h)]
  simp [List.getElem_set]

theorem key_getD_map (l : List Pair) (j : Nat) :
    (l.getD j defaultPair).Key = (l.map Pair.Key).getD j [] := by
  induction l generalizing j with
  | nil => cases j <;> rfl
  | cons a t ih =>
    cases j with
    | zero => rfl
    | succ n =>
      simp only [List.getD_cons_succ, List.map_cons]
      exact ih n

theorem getD_key_congr {l l' : List Pair}
    (h : l.map Pair.Key = l'.map Pair.Key) (j : Nat) :
    (l.getD j defaultPair).Key = (l'.getD j defaultPair).Key := by
  rw [key_getD_map, key_getD_map, h]

theorem getD_append_lt {α : Type} (l l' : List α) (j : Nat) (d : α)
    (h : j < l.length) : (l ++ l').getD j d = l.getD j d := by
  induction l generalizing j with
  | nil => simp at h
  | cons a t ih =>
    cases j with
    | zero => rfl
    | succ n =>
      simp only [List.cons_append, List.getD_cons_succ]
      exact ih n (by simpa using h)

theorem getD_append_len {α : Type} (l : List α) (a : α) (l' : List α) (d : α) :
    (l ++ a :: l').getD l.length d = a := by
  induction l with
  | nil => rfl
  | cons b t ih =>
    simpa [List.cons_append, List.getD_cons_succ] using ih

/-! ### Preservation of `Wf` by `add1` -/

theorem add1_mem_spec {hp : HeaderParams} (h : hp.Wf) (p : Pair) (i : Nat)
    (hm : mapGet hp.keys p.Key = some i) :
    (hp.add1 p).keys = hp.keys ∧
    (hp.add1 p).data = hp.data.set i ⟨(hp.data.getD i defaultPair).Key, p.Val⟩ ∧
    (hp.add1 p).data.map Pair.Key = hp.data.map Pair.Key ∧
    (hp.add1 p).Wf := by
  have hkeys : (hp.add1 p).keys = hp.keys := by unfold HeaderParams.add1; rw [hm]
  have hdata : (hp.add1 p).data =
      hp.data.set i ⟨(hp.data.getD i defaultPair).Key, p.Val⟩ := by
    unfold HeaderParams.add1; rw [hm]
  have hmap : (hp.add1 p).data.map Pair.Key = hp.data.map Pair.Key := by
    rw [hdata, List.map_set]
    show (List.map Pair.Key hp.data).set i ((hp.data.getD i defaultPair).Key) = _
    have : (hp.data.getD i defaultPair).Key =
        (hp.data.map Pair.Key).getD i defaultPair.Key := by
      by_cases hi : i < hp.data.length
      · rw [List.getD_eq_getElem _ _ hi, List.getD_eq_getElem _ _ (by simpa using hi)]
        simp
      · rw [List.getD_eq_default _ _ (by omega), List.getD_eq_default _ _ (by simp; omega)]
    rw [this, list_set_getD_self]
  have hlen : (hp.add1 p).data.length = hp.data.length := by
    rw [hdata, List.length_set]
  refine ⟨hkeys, hdata, hmap, ?_, ?_, ?_, ?_, ?_⟩
  · intro e he
    rw [hkeys] at he
    obtain ⟨h1, h2⟩ := h.1 e he
    refine ⟨by rw [hlen]; exact h1, ?_⟩
    rw [getD_key_congr hmap e.2]
    exact h2
  · intro j hj
    rw [hlen] at hj
    rw [hkeys]
    rw [getD_key_congr hmap j]
    exact h.2.1 j hj
  · rw [hmap]; exact h.2.2.1
  · rw [hkeys]; exact h.2.2.2.1
  · rw [hkeys, hlen]; exact h.2.2.2.2

theorem add1_new_spec {hp : HeaderParams} (h : hp.Wf) (p : Pair)
    (hm : mapGet hp.keys p.Key = none) :
    (hp.add1 p).keys = hp.keys ++ [(p.Key, hp.data.length)] ∧
    (hp.add1 p).data = hp.data ++ [p] ∧
    (hp.add1 p).Wf := by
  have hnotk : p.Key ∉ hp.keys.map Prod.fst := (mapGet_eq_none_iff _ _).mp hm
  have hnotd : p.Key ∉ hp.data.map Pair.Key := by
    intro hmem
    obtain ⟨q, hq, hqk⟩ := List.mem_map.mp hmem
    obtain ⟨j, hj, hje⟩ := List.mem_iff_getElem.mp hq
    apply hnotk
    have := h.2.1 j hj
    rw [List.getD_eq_getElem _ _ hj, hje, hqk] at this
    exact List.mem_map_of_mem Prod.fst this
  have hkeys : (hp.add1 p).keys = hp.keys ++ [(p.Key, hp.data.length)] := by
    unfold HeaderParams.add1; rw [hm]
  have hdata : (hp.add1 p).data = hp.data ++ [p] := by
    unfold HeaderParams.add1; rw [hm]
  refine ⟨hkeys, hdata, ?_, ?_, ?_, ?_, ?_⟩
  · intro e he
    rw [hkeys] at he
    rcases List.mem_append.mp he with he | he
    · obtain ⟨h1, h2⟩ := h.1 e he
      refine ⟨by rw [hdata]; simp; omega, ?_⟩
      rw [hdata, getD_append_lt _ _ _ _ h1]
      exact h2
    · simp only [List.mem_singleton] at he
      subst he
      refine ⟨by rw [hdata]; simp, ?_⟩
      rw [hdata]
      simp only []
      rw [getD_append_len]
  · intro j hj
    rw [hdata] at hj
    simp only [List.length_append, List.length_singleton] at hj
    rw [hkeys, hdata]
    by_cases hjl : j < hp.data.length
    · rw [getD_append_lt _ _ _ _ hjl]
      exact List.mem_append_left _ (h.2.1 j hjl)
    · have hj' : j = hp.data.length := by omega
      subst hj'
      rw [getD_append_len]
      simp
  · rw [hdata, List.map_append]
    simp only [List.map_cons, List.map_nil]
    rw [List.nodup_append]
    exact ⟨h.2.2.1, List.nodup_singleton _, by simpa using hnotd⟩
  · rw [hkeys, List.map_append]
    simp only [List.map_cons, List.map_nil]
    rw [List.nodup_append]
    exact ⟨h.2.2.2.1, List.nodup_singleton _, by simpa using hnotk⟩
  · rw [hkeys, hdata]
    simp only [List.length_append, List.length_singleton]
    rw [h.2.2.2.2]

theorem Wf_NewParams : NewParams.Wf := by
  refine ⟨?_, ?_, ?_, ?_, ?_⟩ <;> simp [NewParams]

theorem Add_all_new {hp : HeaderParams} (h : hp.Wf) (ps : List Pair)
    (hnd : (ps.map Pair.Key).Nodup)
    (hdisj : ∀ p ∈ ps, p.Key ∉ hp.data.map Pair.Key) :
    (hp.Add ps).data = hp.data ++ ps ∧ (hp.Add ps).Wf := by
  induction ps generalizing hp with
  | nil => exact ⟨by simp [HeaderParams.Add], by simpa [HeaderParams.Add] using h⟩
  | cons p t ih =>
    have hm : mapGet hp.keys p.Key = none :=
      Wf.mapGet_eq_none h p.Key (hdisj p (List.mem_cons_self p t))
    obtain ⟨hk, hd, hw⟩ := add1_new_spec h p hm
    simp only [List.map_cons, List.nodup_cons] at hnd
    have hdisj' : ∀ q ∈ t, q.Key ∉ (hp.add1 p).data.map Pair.Key := by
      intro q hq
      rw [hd, List.map_append]
      simp only [List.map_cons, List.map_nil]
      intro hmem
      rcases List.mem_append.mp hmem with hmem | hmem
      · exact hdisj q (List.mem_cons_of_mem p hq) hmem
      · simp only [List.mem_singleton] at hmem
        exact hnd.1 (hmem ▸ List.mem_map_of_mem Pair.Key hq)
    obtain ⟨ihd, ihw⟩ := ih hw hnd.2 hdisj'
    have hstep : hp.Add (p :: t) = (hp.add1 p).Add t := rfl
    rw [hstep, ihd, hd]
    exact ⟨by simp, ihw⟩

/-! ### Claim C5: Add preserves key order -/

theorem Add_from_empty (ps : List Pair) (hnd : (ps.map Pair.Key).Nodup) :
    (NewParams.Add ps).data = ps ∧ (NewParams.Add ps).Wf := by
  obtain ⟨hd, hw⟩ := Add_all_new Wf_NewParams ps hnd (by simp [NewParams])
  exact ⟨by simpa [NewParams] using hd, hw⟩

/-- C5: for every sequence of `Add` calls with pairwise distinct keys starting
from an empty map, `Keys()` lists exactly those keys in call order; a later
`Add` of a key already present replaces its value (observed through `Get`)
but leaves the key order returned by `Keys()` unchanged. -/
theorem c5_add_key_order (ps : List Pair) (hnd : (ps.map Pair.Key).Nodup) :
    (NewParams.Add ps).Keys = ps.map Pair.Key ∧
    ∀ p : Pair, p.Key ∈ ps.map Pair.Key →
      ((NewParams.Add ps).Add [p]).Keys = ps.map Pair.Key ∧
      ((NewParams.Add ps).Add [p]).Get p.Key = (p.Val, true) := by
  obtain ⟨hd, hw⟩ := Add_from_empty ps hnd
  have hkeys0 : (NewParams.Add ps).Keys = ps.map Pair.Key := by
    rw [Wf.Keys_eq hw, hd]
  refine ⟨hkeys0, ?_⟩
  intro p hp
  set m := NewParams.Add ps
  obtain ⟨q, hq, hqk⟩ := List.mem_map.mp hp
  obtain ⟨j, hj, hje⟩ := List.mem_iff_getElem.mp (by rw [← hd] at hq; exact hq)
  have hmg : mapGet m.keys p.Key = some j := by
    rw [Wf.mapGet_iff hw]
    refine ⟨hj, ?_⟩
    rw [List.getD_eq_getElem _ _ hj, hje, hqk]
  have hadd : m.Add [p] = m.add1 p := rfl
  obtain ⟨hk1, hd1, hm1, hw1⟩ := add1_mem_spec hw p j hmg
  constructor
  · rw [hadd, Wf.Keys_eq hw1, hm1, hd]
  · rw [hadd]
    unfold HeaderParams.Get
    rw [hk1, hmg]
    simp only [Prod.mk.injEq]
    refine ⟨?_, trivial⟩
    rw [hd1, getD_set_self _ _ _ _ hj]

/-- Witness for C5 at a concrete input. -/
theorem c5_add_key_order_witness :
    (([⟨str "tag", str "aaa"⟩, ⟨str "branch", str "bbb"⟩].map Pair.Key).Nodup) ∧
    (NewParams.Add [⟨str "tag", str "aaa"⟩, ⟨str "branch", str "bbb"⟩]).Keys =
      [str "tag", str "branch"] :=
  ⟨by decide,
   (c5_add_key_order [⟨str "tag", str "aaa"⟩, ⟨str "branch", str "bbb"⟩]
      (by decide)).1⟩

/-! ### Claim C6: Remove re-indexing -/

theorem getD_take {α : Type} (l : List α) (i j : Nat) (d : α) (h : j < i) :
    (l.take i).getD j d = l.getD j d := by
  induction l generalizing i j with
  | nil => simp [List.take_nil]
  | cons a t ih =>
    cases i with
    | zero => omega
    | succ n =>
      cases j with
      | zero => rfl
      | succ m =>
        simp only [List.take_succ_cons, List.getD_cons_succ]
        exact ih n m (by omega)

theorem getD_append_ge {α : Type} (A B : List α) (j : Nat) (d : α)
    (h : A.length ≤ j) : (A ++ B).getD j d = B.getD (j - A.length) d := by
  induction A generalizing j with
  | nil => simp
  | cons a t ih =>
    cases j with
    | zero => simp at h
    | succ m =>
      simp only [List.cons_append, List.getD_cons_succ, List.length_cons]
      rw [ih m (by simpa using h)]
      congr 1
      omega

theorem getD_drop {α : Type} (l : List α) (k m : Nat) (d : α) :
    (l.drop k).getD m d = l.getD (k + m) d := by
  induction l generalizing k with
  | nil => simp [List.drop_nil]
  | cons a t ih =>
    cases k with
    | zero => simp
    | succ n =>
      simp only [List.drop_succ_cons]
      rw [ih n]
      have : n + 1 + m = (n + m) + 1 := by omega
      rw [this, List.getD_cons_succ]

theorem getD_erase_lt {α : Type} (l : List α) (i j : Nat) (d : α)
    (hj : j < i) (hi : i < l.length) :
    (l.take i ++ l.drop (i + 1)).getD j d = l.getD j d := by
  have hlt : j < (l.take i).length := by
    rw [List.length_take]
    omega
  rw [getD_append_lt _ _ _ _ hlt, getD_take _ _ _ _ hj]

theorem getD_erase_ge {α : Type} (l : List α) (i j : Nat) (d : α)
    (hj : i ≤ j) (hi : i < l.length) :
    (l.take i ++ l.drop (i + 1)).getD j d = l.getD (j + 1) d := by
  have hlen : (l.take i).length = i := by
    rw [List.length_take]
    omega
  rw [getD_append_ge _ _ _ _ (by omega), getD_drop, hlen]
  congr 1
  omega

theorem filter_remove_length (l : List (Str × Nat)) (k : Str) (i : Nat)
    (hnd : (l.map Prod.fst).Nodup) (hm : (k, i) ∈ l) :
    (l.filter (fun e => decide (¬ e.1 = k))).length + 1 = l.length := by
  induction l with
  | nil => simp at hm
  | cons e t ih =>
    simp only [List.map_cons, List.nodup_cons] at hnd
    by_cases he : e.1 = k
    · have hfe : (fun e : Str × Nat => decide (¬ e.1 = k)) e = false := by
        simp [he]
      rw [List.filter_cons_of_neg (by simp [he])]
      have ht : t.filter (fun e => decide (¬ e.1 = k)) = t := by
        rw [List.filter_eq_self]
        intro a ha
        simp only [decide_eq_true_eq]
        intro hak
        exact hnd.1 (by rw [he, ← hak]; exact List.mem_map_of_mem Prod.fst ha)
      rw [ht]
      simp
    · rw [List.filter_cons_of_pos (by simp [he])]
      have hmt : (k, i) ∈ t := by
        rcases List.mem_cons.mp hm with hm | hm
        · exfalso; apply he; rw [← hm]
        · exact hm
      simp only [List.length_cons]
      rw [← ih hnd.2 hmt]

theorem dataKey_inj {hp : HeaderParams} (h : hp.Wf) {a b : Nat}
    (ha : a < hp.data.length) (hb : b < hp.data.length)
    (heq : (hp.data.getD a defaultPair).Key = (hp.data.getD b defaultPair).Key) :
    a = b := by
  have hnd := h.2.2.1
  rw [List.getD_eq_getElem _ _ ha, List.getD_eq_getElem _ _ hb] at heq
  have hma : a < (hp.data.map Pair.Key).length := by simpa using ha
  have hmb : b < (hp.data.map Pair.Key).length := by simpa using hb
  have hm : (hp.data.map Pair.Key).get ⟨a, hma⟩ =
      (hp.data.map Pair.Key).get ⟨b, hmb⟩ := by
    simpa using heq
  have h3 := hnd.get_inj_iff.mp hm
  simpa using h3

theorem Remove_spec {hp : HeaderParams} (h : hp.Wf) (k : Str) (i : Nat)
    (hm : mapGet hp.keys k = some i) :
    (hp.Remove k).data = hp.data.take i ++ hp.data.drop (i + 1) ∧
    (hp.Remove k).Wf := by
  obtain ⟨hi, hk⟩ := (Wf.mapGet_iff h k i).mp hm
  have hdata : (hp.Remove k).data = hp.data.take i ++ hp.data.drop (i + 1) := by
    unfold HeaderParams.Remove; rw [hm]
  have hkeys : (hp.Remove k).keys =
      (hp.keys.filter (fun e => decide (¬ e.1 = k))).map
        (fun e => if e.2 > i then (e.1, e.2 - 1) else e) := by
    unfold HeaderParams.Remove; rw [hm]
  have hlen : (hp.Remove k).data.length + 1 = hp.data.length := by
    rw [hdata]
    simp only [List.length_append, List.length_take, List.length_drop]
    omega
  refine ⟨hdata, ?_, ?_, ?_, ?_, ?_⟩
  · intro e' he'
    rw [hkeys] at he'
    obtain ⟨e, hef, hee⟩ := List.mem_map.mp he'
    obtain ⟨hemem, hep⟩ := List.mem_filter.mp hef
    simp only [decide_eq_true_eq] at hep
    obtain ⟨helt, hekey⟩ := h.1 e hemem
    have hene : e.2 ≠ i := by
      intro hei
      apply hep
      rw [← hekey, hei, hk]
    by_cases hgt : e.2 > i
    · rw [if_pos hgt] at hee
      subst hee
      constructor
      · simp only []
        omega
      · simp only []
        rw [hdata, getD_erase_ge _ _ _ _ (by omega) hi]
        have : e.2 - 1 + 1 = e.2 := by omega
        rw [this, hekey]
    · rw [if_neg hgt] at hee
      subst hee
      constructor
      · omega
      · rw [hdata, getD_erase_lt _ _ _ _ (by omega) hi]
        exact hekey
  · intro j hj
    rw [hkeys]
    by_cases hji : j < i
    · have hjlen : j < hp.data.length := by omega
      have hmem := h.2.1 j hjlen
      have hne : (hp.data.getD j defaultPair).Key ≠ k := by
        intro hjk
        have := dataKey_inj h hjlen hi (by rw [hjk, hk])
        omega
      have hf : ((hp.data.getD j defaultPair).Key, j) ∈
          hp.keys.filter (fun e => decide (¬ e.1 = k)) :=
        List.mem_filter.mpr ⟨hmem, by simpa using hne⟩
      have : (hp.Remove k).data.getD j defaultPair =
          hp.data.getD j defaultPair := by
        rw [hdata, getD_erase_lt _ _ _ _ hji hi]
      rw [this]
      refine List.mem_map.mpr ⟨((hp.data.getD j defaultPair).Key, j), hf, ?_⟩
      rw [if_neg (by omega)]
    · have hjlen : j + 1 < hp.data.length := by omega
      have hmem := h.2.1 (j + 1) hjlen
      have hne : (hp.data.getD (j + 1) defaultPair).Key ≠ k := by
        intro hjk
        have := dataKey_inj h hjlen hi (by rw [hjk, hk])
        omega
      have hf : ((hp.data.getD (j + 1) defaultPair).Key, j + 1) ∈
          hp.keys.filter (fun e => decide (¬ e.1 = k)) :=
        List.mem_filter.mpr ⟨hmem, by simpa using hne⟩
      have hgd : (hp.Remove k).data.getD j defaultPair =
          hp.data.getD (j + 1) defaultPair := by
        rw [hdata, getD_erase_ge _ _ _ _ (by omega) hi]
      rw [hgd]
      refine List.mem_map.mpr ⟨((hp.data.getD (j + 1) defaultPair).Key, j + 1), hf, ?_⟩
      rw [if_pos (by omega)]
      simp
  · rw [hdata, List.map_append, List.map_take, List.map_drop]
    apply List.Nodup.sublist ?_ h.2.2.1
    have h1 : List.Sublist ((hp.data.map Pair.Key).drop (i + 1))
        ((hp.data.map Pair.Key).drop i) := by
      have : ((hp.data.map Pair.Key).drop i).drop 1 =
          (hp.data.map Pair.Key).drop (i + 1) := by
        rw [List.drop_drop]
      rw [← this]
      exact List.drop_sublist 1 _
    have h2 := List.Sublist.append_left h1 ((hp.data.map Pair.Key).take i)
    have h3 : (hp.data.map Pair.Key).take i ++ (hp.data.map Pair.Key).drop i =
        hp.data.map Pair.Key := List.take_append_drop i _
    rw [h3] at h2
    exact h2
  · rw [hkeys]
    have hfst : ((hp.keys.filter (fun e => decide (¬ e.1 = k))).map
        (fun e => if e.2 > i then (e.1, e.2 - 1) else e)).map Prod.fst =
        (hp.keys.filter (fun e => decide (¬ e.1 = k))).map Prod.fst := by
      rw [List.map_map]
      apply List.map_congr_left
      intro e he
      by_cases hgt : e.2 > i
      · simp [hgt]
      · simp [hgt]
    rw [hfst]
    exact List.Nodup.sublist (List.Sublist.map Prod.fst (List.filter_sublist _))
      h.2.2.2.1
  · rw [hkeys]
    rw [List.length_map]
    have hfl := filter_remove_length hp.keys k i h.2.2.2.1 (mapGet_mem _ _ _ hm)
    have h5 := h.2.2.2.2
    omega

theorem km_split {hp : HeaderParams} (_h : hp.Wf) (k : Str) (i : Nat)
    (hi : i < hp.data.length) (hk : (hp.data.getD i defaultPair).Key = k) :
    hp.data.map Pair.Key =
      (hp.data.map Pair.Key).take i ++ k :: (hp.data.map Pair.Key).drop (i + 1) := by
  have hmi : i < (hp.data.map Pair.Key).length := by simpa using hi
  have h1 : (hp.data.map Pair.Key).get ⟨i, hmi⟩ ::
      (hp.data.map Pair.Key).drop (i + 1) =
      (hp.data.map Pair.Key).drop i := List.getElem_cons_drop _ _ hmi
  have h2 : (hp.data.map Pair.Key).get ⟨i, hmi⟩ = k := by
    rw [List.getD_eq_getElem _ _ hi] at hk
    simpa using hk
  rw [h2] at h1
  rw [h1, List.take_append_drop]

/-- C6: after `Remove(k)` the length decreases by exactly one when `k` was
present (unchanged when absent), the remaining keys keep their relative
order in `Keys()`, and every stored index still names the actual position
of its key in the vector. -/
theorem c6_remove_reindex (hp : HeaderParams) (h : hp.Wf) (k : Str) :
    (if hp.Has k then (hp.Remove k).Length + 1 = hp.Length
      else (hp.Remove k).Length = hp.Length) ∧
    (hp.Remove k).Keys = hp.Keys.filter (fun s => decide (¬ s = k)) ∧
    ∀ e ∈ (hp.Remove k).keys,
      e.2 < (hp.Remove k).data.length ∧
      ((hp.Remove k).data.getD e.2 defaultPair).Key = e.1 := by
  cases hm : mapGet hp.keys k with
  | none =>
    have hrm : hp.Remove k = hp := by
      unfold HeaderParams.Remove; rw [hm]
    have hnk : k ∉ hp.data.map Pair.Key := by
      intro hmem
      obtain ⟨q, hq, hqk⟩ := List.mem_map.mp hmem
      obtain ⟨j, hj, hje⟩ := List.mem_iff_getElem.mp hq
      have : mapGet hp.keys k = some j := by
        rw [Wf.mapGet_iff h]
        exact ⟨hj, by rw [List.getD_eq_getElem _ _ hj, hje, hqk]⟩
      rw [hm] at this
      exact Option.noConfusion this
    refine ⟨?_, ?_, ?_⟩
    · have hhas : hp.Has k = false := by
        unfold HeaderParams.Has; rw [hm]; rfl
      rw [hhas]
      simp [hrm]
    · rw [hrm, Wf.Keys_eq h]
      rw [List.filter_eq_self.mpr]
      intro a ha
      simp only [decide_eq_true_eq]
      intro hak
      exact hnk (hak ▸ ha)
    · rw [hrm]
      intro e he
      exact h.1 e he
  | some i =>
    obtain ⟨hi, hk⟩ := (Wf.mapGet_iff h k i).mp hm
    obtain ⟨hdata, hwf⟩ := Remove_spec h k i hm
    have hhas : hp.Has k = true := by
      unfold HeaderParams.Has; rw [hm]; rfl
    refine ⟨?_, ?_, ?_⟩
    · rw [hhas]
      simp only [if_true]
      unfold HeaderParams.Length
      rw [hdata]
      simp only [List.length_append, List.length_take, List.length_drop]
      omega
    · rw [Wf.Keys_eq hwf, Wf.Keys_eq h, hdata]
      rw [List.map_append, List.map_take, List.map_drop]
      have hnd := h.2.2.1
      rw [km_split h k i hi hk] at hnd
      have hnotk : k ∉ (hp.data.map Pair.Key).take i ∧
          k ∉ (hp.data.map Pair.Key).drop (i + 1) := by
        rw [List.nodup_append] at hnd
        obtain ⟨hnd1, hnd2, hdisj⟩ := hnd
        constructor
        · intro hmem
          exact hdisj hmem (List.mem_cons_self _ _)
        · intro hmem
          rw [List.nodup_cons] at hnd2
          exact hnd2.1 hmem
      have htake : ((hp.data.map Pair.Key).take i).filter
          (fun s => decide (¬ s = k)) = (hp.data.map Pair.Key).take i := by
        rw [List.filter_eq_self]
        intro a ha
        simp only [decide_eq_true_eq]
        intro hak
        exact hnotk.1 (hak ▸ ha)
      have hdrop : ((hp.data.map Pair.Key).drop (i + 1)).filter
          (fun s => decide (¬ s = k)) = (hp.data.map Pair.Key).drop (i + 1) := by
        rw [List.filter_eq_self]
        intro a ha
        simp only [decide_eq_true_eq]
        intro hak
        exact hnotk.2 (hak ▸ ha)
      conv_rhs => rw [km_split h k i hi hk]
      rw [List.filter_append, List.filter_cons, htake, hdrop, if_neg (by simp)]
    · intro e he
      exact hwf.1 e he

/-- Witness for C6 at a concrete input. -/
theorem c6_remove_reindex_witness :
    (NewParams.Add [⟨str "tag", str "aaa"⟩, ⟨str "branch", str "bbb"⟩,
        ⟨str "rport", str ""⟩]).Wf ∧
    (if (NewParams.Add [⟨str "tag", str "aaa"⟩, ⟨str "branch", str "bbb"⟩,
          ⟨str "rport", str ""⟩]).Has (str "branch") then
        ((NewParams.Add [⟨str "tag", str "aaa"⟩, ⟨str "branch", str "bbb"⟩,
          ⟨str "rport", str ""⟩]).Remove (str "branch")).Length + 1 =
          (NewParams.Add [⟨str "tag", str "aaa"⟩, ⟨str "branch", str "bbb"⟩,
            ⟨str "rport", str ""⟩]).Length
      else
        ((NewParams.Add [⟨str "tag", str "aaa"⟩, ⟨str "branch", str "bbb"⟩,
          ⟨str "rport", str ""⟩]).Remove (str "branch")).Length =
          (NewParams.Add [⟨str "tag", str "aaa"⟩, ⟨str "branch", str "bbb"⟩,
            ⟨str "rport", str ""⟩]).Length) :=
  ⟨by decide,
   (c6_remove_reindex _ (by decide) (str "branch")).1⟩

/-! ### Claim C7: Equals is order-sensitive -/

theorem pair_ext {p q : Pair} (hk : p.Key = q.Key) (hv : p.Val = q.Val) :
    p = q := by
  obtain ⟨a, b⟩ := p
  obtain ⟨c, d⟩ := q
  simp only at hk hv
  rw [hk, hv]

theorem eqLoop_iff (a b : HeaderParams) :
    eqLoop a b = true ↔
      ∀ e ∈ a.keys, mapGet b.keys e.1 = some e.2 ∧ a.valAt e.2 = b.valAt e.2 := by
  unfold eqLoop
  rw [List.all_eq_true]
  constructor
  · intro hall e he
    have hb := hall e he
    cases hg : mapGet b.keys e.1 with
    | none => rw [hg] at hb; simp at hb
    | some qv =>
      rw [hg] at hb
      simp only [Bool.and_eq_true, decide_eq_true_eq] at hb
      obtain ⟨h1, h2⟩ := hb
      subst h1
      exact ⟨rfl, h2⟩
  · intro hall e he
    obtain ⟨h1, h2⟩ := hall e he
    rw [h1]
    simp [h2]

theorem wf_length_zero_keys {hp : HeaderParams} (h : hp.Wf)
    (hl : hp.Length = 0) : hp.keys = [] := by
  have := h.2.2.2.2
  unfold HeaderParams.Length at hl
  rw [hl] at this
  exact List.length_eq_zero.mp this

theorem equalsCore_iff {hp o : HeaderParams} (h1 : hp.Wf) (h2 : o.Wf) :
    hp.EqualsCore o = true ↔
      (hp.Length = o.Length ∧
       (∀ k i, mapGet hp.keys k = some i →
          mapGet o.keys k = some i ∧ hp.valAt i = o.valAt i) ∧
       (∀ k i, mapGet o.keys k = some i →
          mapGet hp.keys k = some i ∧ hp.valAt i = o.valAt i)) := by
  unfold HeaderParams.EqualsCore
  by_cases hl : hp.Length ≠ o.Length
  · rw [if_pos hl]
    simp only [Bool.false_eq_true, false_iff]
    intro hc
    exact hl hc.1
  · rw [if_neg hl]
    push_neg at hl
    by_cases hz : hp.Length = 0
    · rw [if_pos hz]
      simp only [true_iff]
      refine ⟨hl, ?_, ?_⟩
      · intro k i hk
        rw [wf_length_zero_keys h1 hz] at hk
        exact Option.noConfusion hk
      · intro k i hk
        rw [wf_length_zero_keys h2 (by omega)] at hk
        exact Option.noConfusion hk
    · rw [if_neg hz]
      rw [Bool.and_eq_true, eqLoop_iff, eqLoop_iff]
      constructor
      · rintro ⟨ha, hb⟩
        refine ⟨hl, ?_, ?_⟩
        · intro k i hk
          have hmem := mapGet_mem _ _ _ hk
          have := ha (k, i) hmem
          exact this
        · intro k i hk
          have hmem := mapGet_mem _ _ _ hk
          have := hb (k, i) hmem
          exact ⟨this.1, this.2.symm⟩
      · rintro ⟨hlen, ha, hb⟩
        constructor
        · intro e he
          exact ha e.1 e.2 (mem_mapGet _ _ _ h1.2.2.2.1 he)
        · intro e he
          have := hb e.1 e.2 (mem_mapGet _ _ _ h2.2.2.2.1 he)
          exact ⟨this.1, this.2.symm⟩

/-- C7: `Equals` is order-sensitive: two well-formed maps are `Equals`
exactly when they have the same length and, for every key, the same stored
position and the same value; consequently two maps built by inserting the
same distinct-key pairs in different orders are never `Equals`. -/
theorem c7_equals_order_sensitive :
    (∀ hp o : HeaderParams, hp.Wf → o.Wf →
      (hp.Equals (some o) = true ↔
        (hp.Length = o.Length ∧
         (∀ k i, mapGet hp.keys k = some i →
            mapGet o.keys k = some i ∧ hp.valAt i = o.valAt i) ∧
         (∀ k i, mapGet o.keys k = some i →
            mapGet hp.keys k = some i ∧ hp.valAt i = o.valAt i)))) ∧
    (∀ ps qs : List Pair, (ps.map Pair.Key).Nodup → qs.Perm ps → qs ≠ ps →
      (NewParams.Add ps).Equals (some (NewParams.Add qs)) = false) := by
  constructor
  · intro hp o h1 h2
    show hp.EqualsCore o = true ↔ _
    exact equalsCore_iff h1 h2
  · intro ps qs hnd hperm hne
    have hndq : (qs.map Pair.Key).Nodup := by
      have hpm : (qs.map Pair.Key).Perm (ps.map Pair.Key) := hperm.map Pair.Key
      exact hpm.nodup_iff.mpr hnd
    obtain ⟨hdp, hwp⟩ := Add_from_empty ps hnd
    obtain ⟨hdq, hwq⟩ := Add_from_empty qs hndq
    cases hb : (NewParams.Add ps).Equals (some (NewParams.Add qs)) with
    | false => rfl
    | true =>
      exfalso
      apply hne
      have heq : (NewParams.Add ps).EqualsCore (NewParams.Add qs) = true := hb
      rw [equalsCore_iff hwp hwq] at heq
      obtain ⟨hlen, hfwd, hbwd⟩ := heq
      have hlen2 : qs.length = ps.length := hperm.length_eq
      apply List.ext_getElem (by omega)
      intro j hjq hjp
      have hjp2 : j < (NewParams.Add ps).data.length := by rw [hdp]; omega
      have hmgp : mapGet (NewParams.Add ps).keys
          (ps.getD j defaultPair).Key = some j := by
        rw [Wf.mapGet_iff hwp]
        refine ⟨hjp2, ?_⟩
        rw [hdp]
      obtain ⟨hmgq, hval⟩ := hfwd _ j hmgp
      rw [Wf.mapGet_iff hwq] at hmgq
      obtain ⟨hq1, hq2⟩ := hmgq
      rw [hdq] at hq2
      have hkeyeq : (qs.getD j defaultPair).Key = (ps.getD j defaultPair).Key := hq2
      have hvaleq : (ps.getD j defaultPair).Val = (qs.getD j defaultPair).Val := by
        unfold HeaderParams.valAt at hval
        rw [hdp, hdq] at hval
        exact hval
      have hpair : qs.getD j defaultPair = ps.getD j defaultPair :=
        pair_ext hkeyeq hvaleq.symm
      rw [← List.getD_eq_getElem qs defaultPair hjq,
        ← List.getD_eq_getElem ps defaultPair hjp]
      exact hpair

/-- Witness for C7 at a concrete input: identical pairs inserted in the two
orders are not `Equals`. -/
theorem c7_equals_order_sensitive_witness :
    (([⟨str "a", str "1"⟩, ⟨str "b", str "2"⟩].map Pair.Key).Nodup ∧
     ([⟨str "b", str "2"⟩, ⟨str "a", str "1"⟩] :
        List Pair).Perm [⟨str "a", str "1"⟩, ⟨str "b", str "2"⟩] ∧
     ([⟨str "b", str "2"⟩, ⟨str "a", str "1"⟩] :
        List Pair) ≠ [⟨str "a", str "1"⟩, ⟨str "b", str "2"⟩]) ∧
    (NewParams.Add [⟨str "a", str "1"⟩, ⟨str "b", str "2"⟩]).Equals
      (some (NewParams.Add [⟨str "b", str "2"⟩, ⟨str "a", str "1"⟩])) = false :=
  ⟨⟨by decide, by decide, by decide⟩,
   c7_equals_order_sensitive.2 [⟨str "a", str "1"⟩, ⟨str "b", str "2"⟩]
     [⟨str "b", str "2"⟩, ⟨str "a", str "1"⟩] (by decide) (by decide) (by decide)⟩

/-! ## The URI engine (`uri.go` and the FSM parser file) -/

/-- `URIScheme` (`uri.go`): `iota - 1` makes `error = -1` and `sip = 0`,
so the Go zero value of the field is `sip`. -/
inductive URIScheme
  | error
  | sip
  | sips
  | tel
  | urn
  | unknown
deriving DecidableEq

/-- The `uriSchemes` map; a missing key yields the empty string in Go. -/
def uriSchemesStr : URIScheme → Str
  | .sip => str "sip"
  | .sips => str "sips"
  | .tel => str "tel"
  | _ => []

def isDigitCh (c : Char) : Bool := decide ('0' ≤ c ∧ c ≤ '9')

/-- Modelled from the spec: `ASCIIToLower` is declared outside the provided
source files; its tests in `utils_test.go` fix its behaviour (ASCII capital
letters are lowered, every other byte is untouched).  `strings.ToLower`
agrees with it on the ASCII data handled here. -/
def asciiLowerChar (c : Char) : Char :=
  if 'A' ≤ c ∧ c ≤ 'Z' then Char.ofNat (c.toNat + 32) else c

def asciiToLower (s : Str) : Str := s.map asciiLowerChar

/-- Modelled from the spec: `isASCII` is declared outside the provided source
files; per its use ("Check is c still ASCII") it accepts code points below
128. -/
def isASCII (c : Char) : Bool := decide (c.toNat < 128)

/-- `detectScheme` (`uri.go`): lower-case the token and classify; the bare
`*` token also maps to the SIP scheme. -/
def detectScheme (s : Str) : URIScheme :=
  let l := asciiToLower s
  if l = str "sip" ∨ l = str "*" then .sip
  else if l = str "sips" then .sips
  else if l = str "tel" then .tel
  else .unknown

def digitsVal (l : Str) : Nat :=
  l.foldl (fun a c => a * 10 + (c.toNat - 48)) 0

def allDigits (s : Str) : Bool := s.all isDigitCh

/-- Model of Go `strconv.Atoi` on a 64-bit platform: optional single sign,
at least one digit, digits only, and the value must fit in an `int64`
(`Atoi` reports an error both on syntax violations and on range overflow;
the clamped value it returns alongside a range error is not modelled, no
claim depends on it). -/
def atoi (s : Str) : Option Int :=
  match s with
  | [] => none
  | '+' :: t =>
    if t ≠ [] ∧ allDigits t ∧ digitsVal t ≤ 9223372036854775807 then
      some (digitsVal t) else none
  | '-' :: t =>
    if t ≠ [] ∧ allDigits t ∧ digitsVal t ≤ 9223372036854775808 then
      some (-(digitsVal t : Int)) else none
  | l =>
    if allDigits l ∧ digitsVal l ≤ 9223372036854775807 then
      some (digitsVal l) else none

def natToDigitsAux (n : Nat) (acc : Str) : Str :=
  let d := Char.ofNat (48 + n % 10)
  if _h : n < 10 then d :: acc
  else natToDigitsAux (n / 10) (d :: acc)
termination_by n
decreasing_by exact Nat.div_lt_self (by omega) (by omega)

/-- Model of Go `strconv.Itoa` for the nonnegative ports the renderer
prints. -/
def natToDigits (n : Nat) : Str := natToDigitsAux n []

/-- `SIPURI` (`uri.go`); the Go zero value has `Scheme = URISchemeSIP`,
`Port = 0` and nil (`none`) parameter maps. -/
structure SIPURI where
  Scheme : URIScheme := .sip
  Wildcard : Bool := false
  HierarhicalSlashes : Bool := false
  User : Str := []
  Password : Str := []
  Host : Str := []
  Port : Int := 0
  Params : Option HeaderParams := none
  Headers : Option HeaderParams := none
deriving DecidableEq

/-- `TELURI` (`uri.go`); the zero value of the `Scheme` field is the numeric
zero, i.e. `URISchemeSIP`. -/
structure TELURI where
  Scheme : URIScheme := .sip
  Wildcard : Bool := false
  HierarhicalSlashes : Bool := false
  Number : Str := []
  Params : Option HeaderParams := none
  Headers : Option HeaderParams := none
deriving DecidableEq

/-- `SIPURI.StringWrite`/`String`: scheme, `:`, optional `//`, optional
`user[:password]@`, host, optional `:port` (only when positive), optional
`;params`, optional `?headers`. -/
def SIPURI.StringWrite (u : SIPURI) : Str :=
  uriSchemesStr u.Scheme ++ ':' ::
    ((if u.HierarhicalSlashes then str "//" else []) ++
     (if u.User ≠ [] then
        u.User ++ (if u.Password ≠ [] then ':' :: u.Password else []) ++ ['@']
      else []) ++
     u.Host ++
     (if u.Port > 0 then ':' :: natToDigits u.Port.toNat else []) ++
     (match u.Params with
      | some ps => if ps.Length > 0 then ';' :: ps.ToString ';' else []
      | none => []) ++
     (match u.Headers with
      | some hs => if hs.Length > 0 then '?' :: hs.ToString '&' else []
      | none => []))

/-- `TELURI.StringWrite` with `withParam = true` (what `String()` uses):
`GetScheme` pins the scheme text to `tel`.  A Go `TELURI` whose `Params`
pointer is nil would panic inside `Params.Length()`; every parsed TEL URI
carries a (possibly empty) map, so the `none` branch renders nothing. -/
def TELURI.StringWrite (u : TELURI) : Str :=
  str "tel" ++ ':' ::
    ((if u.HierarhicalSlashes then str "//" else []) ++
     u.Number ++
     (match u.Params with
      | some ps => if ps.Length > 0 then ';' :: ps.ToString ';' else []
      | none => []))

/-- The `URI` interface restricted to the two variants the parser can
produce. -/
inductive URI
  | sip (u : SIPURI)
  | tel (u : TELURI)
deriving DecidableEq

def URI.StringWrite : URI → Str
  | .sip u => u.StringWrite
  | .tel u => u.StringWrite

/-! ### The shared parameter-splitting routine -/

/-- Split one parameter segment at its first `=` into key and value. -/
def splitPairEq (seg : Str) : Pair :=
  match breakAt (fun c => decide (c = '=')) seg with
  | some (k, _, v) => ⟨k, v⟩
  | none => ⟨seg, []⟩

/-- Commit one segment to the map; an empty segment is tolerated and
ignored. -/
def upCommit (hp : HeaderParams) (seg : Str) : HeaderParams :=
  if seg = [] then hp else hp.Add [splitPairEq seg]

def upGo (sep endc : Char) : Str → HeaderParams → Str → Nat → Nat × HeaderParams
  | [], hp, seg, i => (i, upCommit hp seg)
  | c :: t, hp, seg, i =>
    if c = endc then (i, upCommit hp seg)
    else if c = sep then upGo sep endc t (upCommit hp seg) [] (i + 1)
    else upGo sep endc t hp (seg ++ [c]) (i + 1)

/-- Modelled from the spec: `UnmarshalParams` is declared outside the
provided source files (only its callers are under `src/`).  Per the spec
(§4.2, states 7 and 8) it parses `sep`-separated parameters up to the
terminator character `endc` or end of input, splitting each parameter at
`=` (values may be empty, empty segments are tolerated), adding the pairs to
the supplied map in order; it returns the index where scanning stopped (the
position of `endc`, or the length of `s`) and does not fail. -/
def UnmarshalParams (s : Str) (sep endc : Char) (hp : HeaderParams) :
    Nat × HeaderParams :=
  upGo sep endc s hp [] 0

/-! ### The SIP/SIPS URI finite-state machine -/

/-- `uriStateHeaders`: headers are `&`-separated pairs to end of input
(the Go call passes the NUL byte as terminator). -/
def uriStateHeaders (uri : SIPURI) (s : Str) : SIPURI × Option String :=
  let r := UnmarshalParams s '&' (Char.ofNat 0) NewParams
  ({ uri with Headers := some r.2 }, none)

/-- `uriStateUriParams`: on empty input both maps become fresh empty maps;
otherwise parse `;`-separated pairs up to `?`; when a `?` terminator was hit
continue with the headers state. -/
def uriStateUriParams (uri : SIPURI) (s : Str) : SIPURI × Option String :=
  if s.length = 0 then
    ({ uri with Params := some NewParams, Headers := some NewParams }, none)
  else
    let r := UnmarshalParams s ';' '?' NewParams
    let uri := { uri with Params := some r.2 }
    let n := if r.1 = s.length then r.1 - 1 else r.1
    if s.getD n ' ' = '?' then uriStateHeaders uri (s.drop (n + 1))
    else (uri, none)

/-- `uriStatePort`: the run up to `;`, `?` or end must parse as an integer;
on an `Atoi` failure the driver stops with the error (the partially filled
URI keeps the fields set by the earlier states). -/
def uriStatePort (uri : SIPURI) (s : Str) : SIPURI × Option String :=
  match breakAt (fun c => decide (c = ';') || decide (c = '?')) s with
  | some (pre, c, post) =>
    match atoi pre with
    | some v =>
      if c = ';' then uriStateUriParams { uri with Port := v } post
      else uriStateHeaders { uri with Port := v } post
    | none => ({ uri with Port := 0 }, some "invalid port number")
  | none =>
    match atoi s with
    | some v => uriStateUriParams { uri with Port := v } []
    | none => ({ uri with Port := 0 }, some "invalid port number")

/-- `uriStateHostIPV6`: look for `]` within the first
`min(len(s), 42)` characters; fail if absent or at offset zero; the host is
stored verbatim with both brackets; then dispatch on the next character. -/
def uriStateHostIPV6 (uri : SIPURI) (s : Str) : SIPURI × Option String :=
  let maxs := min s.length 42
  match indexOfCh ']' (s.take maxs) with
  | none => (uri, some "IPV6 no closing bracket")
  | some ind =>
    if ind = 0 then (uri, some "IPV6 no closing bracket")
    else
      let uri := { uri with Host := s.take (ind + 1) }
      if ind + 1 = s.length then uriStateUriParams uri []
      else
        let rest := s.drop (ind + 1)
        let c := rest.getD 0 ' '
        if c = ':' then uriStatePort uri (rest.drop 1)
        else if c = ';' then uriStateUriParams uri (rest.drop 1)
        else if c = '?' then uriStateHeaders uri (rest.drop 1)
        else uriStateUriParams uri []

/-- `uriStateHost`: scan for `[`, `:`, `;`, `?`; at end of input the host is
the whole remainder and the wildcard flag records whether it is `*`. -/
def uriStateHost (uri : SIPURI) (s : Str) : SIPURI × Option String :=
  match breakAt (fun c =>
      decide (c = '[') || decide (c = ':') || decide (c = ';') ||
      decide (c = '?')) s with
  | some (pre, c, post) =>
    if c = '[' then uriStateHostIPV6 uri (c :: post)
    else if c = ':' then uriStatePort { uri with Host := pre } post
    else if c = ';' then uriStateUriParams { uri with Host := pre } post
    else uriStateHeaders { uri with Host := pre } post
  | none =>
    uriStateUriParams { uri with Host := s, Wildcard := decide (s = str "*") } []

/-- `uriStateUser`: scan for `[` (IPv6 host, no user part) or `@`; `userend`
keeps the index of the last `:` seen before the `@` and is only honoured
when positive. -/
def uriStateUser (uri : SIPURI) (s : Str) : SIPURI × Option String :=
  match breakAt (fun c => decide (c = '[') || decide (c = '@')) s with
  | some (pre, c, post) =>
    if c = '[' then uriStateHost uri (c :: post)
    else
      match lastIdxOf ':' pre with
      | some ue =>
        if ue > 0 then
          uriStateHost
            { uri with User := pre.take ue, Password := pre.drop (ue + 1) } post
        else uriStateHost { uri with User := pre } post
      | none => uriStateHost { uri with User := pre } post
  | none => uriStateHost uri s

/-- `strings.CutPrefix(s, "//")`: cut the two slashes when they lead. -/
def cutSlashes (s : Str) : Str × Bool :=
  if s.take 2 = str "//" then (s.drop 2, true) else (s, false)

def uriStateSlashes (uri : SIPURI) (s : Str) : SIPURI × Option String :=
  let r := cutSlashes s
  uriStateUser { uri with HierarhicalSlashes := r.2 } r.1

/-- `uriStateScheme`: inputs shorter than 3 characters are accepted only for
the bare `*` wildcard; otherwise the token before the first `:` must
classify as the `sip` scheme (so `sips` text is rejected here as well). -/
def uriStateScheme (uri : SIPURI) (s : Str) : SIPURI × Option String :=
  if s.length < 3 then
    if s = str "*" then
      ({ uri with Host := str "*", Wildcard := true }, none)
    else (uri, some "not valid sip uri")
  else
    match breakAt (fun c => decide (c = ':') || !isASCII c) s with
    | some (pre, c, post) =>
      if c = ':' then
        let scheme := detectScheme (asciiToLower pre)
        if scheme ≠ .sip then (uri, some "Invalid scheme")
        else uriStateSlashes { uri with Scheme := scheme } post
      else (uri, some "invalid uri scheme")
    | none => (uri, some "missing protocol scheme")

/-- `ParseSIPURI`: empty input is an error, otherwise the state machine is
driven from the scheme state; the first error stops it. -/
def ParseSIPURI (s : Str) (uri : SIPURI) : SIPURI × Option String :=
  if s.length = 0 then (uri, some "empty URI") else uriStateScheme uri s

/-! ### The TEL URI finite-state machine -/

def isTelChar (c : Char) : Bool :=
  isDigitCh c || decide (c = '+') || decide (c = '-') || decide (c = '.') ||
  decide (c = '*') || decide (c = '#') || decide (c = ';') || decide (c = '&')

/-- `telStateParams`: `;`-separated pairs; the Go call passes the character
`'0'` as the terminator, so scanning stops at the first literal zero. -/
def telStateParams (uri : TELURI) (s : Str) : TELURI × Option String :=
  if s.length = 0 then ({ uri with Params := some NewParams }, none)
  else
    let r := UnmarshalParams s ';' '0' NewParams
    ({ uri with Params := some r.2 }, none)

/-- `telStateNumber`: the number runs to `;`, `&` or end and may contain
only the TEL characters. -/
def telStateNumber (uri : TELURI) (s : Str) : TELURI × Option String :=
  match breakAt (fun c =>
      decide (c = ';') || decide (c = '&') || !isTelChar c) s with
  | some (pre, c, post) =>
    if c = ';' ∨ c = '&' then telStateParams { uri with Number := pre } post
    else (uri, some "invalid tel uri number")
  | none => telStateParams { uri with Number := s } []

def telStateSlashes (uri : TELURI) (s : Str) : TELURI × Option String :=
  let r := cutSlashes s
  telStateNumber { uri with HierarhicalSlashes := r.2 } r.1

/-- `telStateScheme`: the token before the first `:` must classify as the
`tel` scheme; the scheme field is written before the check. -/
def telStateScheme (uri : TELURI) (s : Str) : TELURI × Option String :=
  if s.length < 3 then (uri, some "not valid sip uri")
  else
    match breakAt (fun c => decide (c = ':') || !isASCII c) s with
    | some (pre, c, post) =>
      if c = ':' then
        let scheme := detectScheme (asciiToLower pre)
        if scheme ≠ .tel then
          ({ uri with Scheme := scheme }, some "not a tel uri sheme")
        else telStateSlashes { uri with Scheme := scheme } post
      else (uri, some "invalid uri scheme")
    | none => (uri, some "missing protocol scheme")

def ParseTELURI (s : Str) (uri : TELURI) : TELURI × Option String :=
  if s.length = 0 then (uri, some "empty URI") else telStateScheme uri s

/-- The scheme scan of `ParseURI`: a `:` among the first `min(len, 4)`
characters classifies the text before it (the last hit wins). -/
def parseURIScheme (s : Str) : URIScheme :=
  (List.range (min s.length 4)).foldl
    (fun acc i => if s.getD i ' ' = ':' then detectScheme (s.take i) else acc)
    URIScheme.error

/-- The Go return pattern `if err != nil { return nil, err }` used by every
`ParseURI` branch: an error yields a nil URI. -/
def uriResult {α : Type} (f : α → URI) (r : α × Option String) :
    Option URI × Option String :=
  match r.2 with
  | some e => (none, some e)
  | none => (some (f r.1), none)

/-- `ParseURI`: classify the scheme and dispatch; on every error path the
returned URI value is nil (`none`). -/
def ParseURI (s : Str) : Option URI × Option String :=
  if s.length < 3 ∧ parseURIScheme s ≠ .sip then
    (none, some "not valid uri scheme")
  else
    match parseURIScheme s with
    | .sip => uriResult URI.sip (ParseSIPURI s { Scheme := .sip })
    | .sips => uriResult URI.sip (ParseSIPURI s { Scheme := .sips })
    | .tel => uriResult URI.tel (ParseTELURI s { Scheme := .tel })
    | _ => (none, some "unsupported uri scheme")

/-! ### TEL to SIP conversion (`uri.go`) -/

/-- `removeVisualFromNumber`: keep a `+` only at index 0 and digits
everywhere. -/
def removeVisualFromNumber (number : Str) : Str :=
  match number with
  | [] => []
  | c :: t =>
    (if c = '+' then [c] else if isDigitCh c then [c] else []) ++
      t.filter isDigitCh

/-- `TELtoSIP`: requires a non-empty `phone-context` parameter; removes it
from the TEL parameters (mutating the TEL URI), shares the map with the SIP
URI and appends `user-context=phone`; the SIP user is the number stripped of
visual separators and the host is the `phone-context` value.  A nil TEL
parameter map would make the Go code panic inside `Get`; parsed TEL URIs
always carry a map. -/
def TELtoSIP (u : TELURI) (uri : SIPURI) : TELURI × SIPURI × Option String :=
  match u.Params with
  | none =>
    (u, uri, some "phone-context parameter is required for TEL-URI to SIP conversion")
  | some ps =>
    let g := ps.Get (str "phone-context")
    if g.2 = false ∨ g.1 = [] then
      (u, uri, some "phone-context parameter is required for TEL-URI to SIP conversion")
    else
      let ps1 := ps.Remove (str "phone-context")
      let ps2 := ps1.Add [⟨str "user-context", str "phone"⟩]
      ({ u with Params := some ps2 },
       { uri with User := removeVisualFromNumber u.Number,
                  Host := g.1,
                  HierarhicalSlashes := u.HierarhicalSlashes,
                  Params := some ps2 },
       none)

/-! ## The name-address engine (`parse_address.go`) -/

/-- `NameAddress`; Go initialises `Params` with `NewParams()` before
parsing and the `URI` interface field is nil (`none`) until set. -/
structure NameAddress where
  DisplayName : Str := []
  URI : Option URI := none
  Params : HeaderParams := NewParams
deriving DecidableEq

/-- The scan of `addressStateDisplayNameQuoted`: `\` toggles the escape
flag; an escaped LF (0x0A) or CR (0x0D) is a hard error; the first
unescaped `"` yields its index; end of input without one is an error. -/
def quotedScan : Str → Bool → Nat → Except String Nat
  | [], _, _ => .error "invalid uri display name inside quotes"
  | c :: t, escaped, i =>
    if c = '\\' then quotedScan t (!escaped) (i + 1)
    else if escaped then
      if c = Char.ofNat 10 ∨ c = Char.ofNat 13 then
        .error "invalid display name, not allowed to escape"
      else quotedScan t false (i + 1)
    else if c = '"' then .ok i
    else quotedScan t escaped (i + 1)

/-- The `addParam` closure of `addressStateHeaderParams`: the segment is
split at the LAST `=` it contains (the Go loop keeps overwriting `equal`);
`=` at index 0 and missing `=` both store the whole segment as a key with an
empty value; an empty segment is ignored. -/
def addrAddParam (na : NameAddress) (seg : Str) : NameAddress :=
  match lastIdxOf '=' seg with
  | some e =>
    if e > 0 then
      { na with Params := na.Params.Add [⟨seg.take e, seg.drop (e + 1)⟩] }
    else if seg = [] then na
    else { na with Params := na.Params.Add [⟨seg, []⟩] }
  | none =>
    if seg = [] then na
    else { na with Params := na.Params.Add [⟨seg, []⟩] }

/-- The driver loop of `addressStateHeaderParams`: split on `;`, commit each
segment. -/
def addressStateHeaderParamsGo (na : NameAddress) (seg : Str) :
    Str → NameAddress × Option String
  | [] => (addrAddParam na seg, none)
  | c :: t =>
    if c = ';' then addressStateHeaderParamsGo (addrAddParam na seg) [] t
    else addressStateHeaderParamsGo na (seg ++ [c]) t

def addressStateHeaderParams (na : NameAddress) (s : Str) :
    NameAddress × Option String :=
  addressStateHeaderParamsGo na [] s

/-- `addressStateUri` (unbracketed): any `*` before the first `;` makes the
wildcard SIP URI and ends parsing; a `;` splits URI text from header
params; otherwise the whole remainder is parsed as the URI. -/
def addressStateUri (na : NameAddress) (s : Str) : NameAddress × Option String :=
  if s.length = 0 then (na, some "no URI present")
  else
    match breakAt (fun c => decide (c = '*') || decide (c = ';')) s with
    | some (pre, c, post) =>
      if c = '*' then
        ({ na with URI := some (.sip
            { Scheme := .sip, Host := str "*", Wildcard := true }) }, none)
      else
        let r := ParseURI pre
        let na := { na with URI := r.1 }
        match r.2 with
        | some e => (na, some e)
        | none => addressStateHeaderParams na post
    | none =>
      let r := ParseURI s
      ({ na with URI := r.1 }, r.2)

/-- `addressStateUriBracket`: the text up to `>` is the URI; a missing `>`
is an error. -/
def addressStateUriBracket (na : NameAddress) (s : Str) :
    NameAddress × Option String :=
  if s.length = 0 then (na, some "no URI present")
  else
    match breakAt (fun c => decide (c = '>')) s with
    | some (pre, _, post) =>
      let r := ParseURI pre
      let na := { na with URI := r.1 }
      match r.2 with
      | some e => (na, some e)
      | none => addressStateHeaderParams na post
    | none => (na, some "invalid uri, missing end bracket")

/-- `addressStateDisplayNameQuoted`: the raw span up to the first unescaped
quote becomes the display name verbatim; afterwards a `<` or `;` must
eventually follow. -/
def addressStateDisplayNameQuoted (na : NameAddress) (s : Str) :
    NameAddress × Option String :=
  match quotedScan s false 0 with
  | .error e => (na, some e)
  | .ok i =>
    let na := { na with DisplayName := s.take i }
    let rest := s.drop (i + 1)
    match breakAt (fun c => decide (c = '<') || decide (c = ';')) rest with
    | some (_, c, post) =>
      if c = '<' then addressStateUriBracket na post
      else addressStateUri na post
    | none => (na, some "no uri after display name")

def isSpaceCh (c : Char) : Bool :=
  decide (c = ' ') || decide (c = Char.ofNat 9) || decide (c = Char.ofNat 10) ||
  decide (c = Char.ofNat 11) || decide (c = Char.ofNat 12) ||
  decide (c = Char.ofNat 13)

/-- `strings.TrimSpace` restricted to the ASCII whitespace the grammar
meets. -/
def trimSpace (s : Str) : Str :=
  ((s.dropWhile isSpaceCh).reverse.dropWhile isSpaceCh).reverse

/-- `addressStateDisplayName`: act on the first of `"`, `<`, `;`; a `;`
first means the bare-URI legacy form and the WHOLE text goes to the
unbracketed URI state. -/
def addressStateDisplayName (na : NameAddress) (s : Str) :
    NameAddress × Option String :=
  match breakAt (fun c =>
      decide (c = '"') || decide (c = '<') || decide (c = ';')) s with
  | some (pre, c, post) =>
    if c = '"' then addressStateDisplayNameQuoted na post
    else if c = '<' then
      addressStateUriBracket { na with DisplayName := trimSpace pre } post
    else addressStateUri na s
  | none => addressStateUri na s

/-- The Go return pattern of `ParseAddressValue`: a state error yields a
nil address. -/
def addrResult (r : NameAddress × Option String) :
    Option NameAddress × Option String :=
  match r.2 with
  | some e => (none, some e)
  | none => (some r.1, none)

/-- `ParseAddressValue`: empty text is an error; on any state error the
caller receives `nil` (`none`) and the error. -/
def ParseAddressValue (s : Str) : Option NameAddress × Option String :=
  if s.length = 0 then (none, some "empty Address")
  else addrResult (addressStateDisplayName
    { DisplayName := [], URI := none, Params := NewParams } s)

/-! ### Claim C2: scheme detection and dispatch (code bug) -/

/-- C2: evaluation of `ParseURI` at the failing inputs.  The scheme scan
stops at index 3, so the colon of `sips:` (index 4) is never seen and every
`sips` URI is rejected with the unsupported-scheme error, although the
repository tests (`TestParseSIPURI`, `TestParseURI_IPv6`,
`TestParseAddressValue`) expect `sips` to parse; the bare `*` is also
rejected even though `detectScheme` maps `*` to the SIP scheme and the spec
says it is accepted.  Lower-case `sip` and `tel` do dispatch correctly. -/
theorem c2_parseuri_sips_and_wildcard_rejected :
    (ParseURI (str "sips:alice@atlanta.com")).1 = none ∧
    (ParseURI (str "sips:alice@atlanta.com")).2 = some "unsupported uri scheme" ∧
    (ParseURI (str "SIPS:alice@atlanta.com")).1 = none ∧
    (ParseURI (str "*")).1 = none ∧
    (ParseURI (str "*")).2 = some "not valid uri scheme" ∧
    (ParseURI (str "sip:alice@atlanta.com")).2 = none ∧
    (ParseURI (str "sIp:alice@atlanta.com")).2 = none ∧
    (ParseURI (str "tel:7042")).2 = none := by decide

/-! ### Claim C8: error propagation -/

theorem uriResult_shape {α : Type} (f : α → URI) (r : α × Option String) :
    (∃ e, uriResult f r = (none, some e)) ∨
    (∃ u, uriResult f r = (some u, none)) := by
  unfold uriResult
  cases hr : r.2 with
  | none => exact Or.inr ⟨_, rfl⟩
  | some e => exact Or.inl ⟨_, rfl⟩

theorem addrResult_shape (r : NameAddress × Option String) :
    (∃ e, addrResult r = (none, some e)) ∨
    (∃ na, addrResult r = (some na, none)) := by
  unfold addrResult
  cases hr : r.2 with
  | none => exact Or.inr ⟨_, rfl⟩
  | some e => exact Or.inl ⟨_, rfl⟩

theorem ParseURI_shape (s : Str) :
    (∃ e, ParseURI s = (none, some e)) ∨ (∃ u, ParseURI s = (some u, none)) := by
  unfold ParseURI
  by_cases hc : s.length < 3 ∧ parseURIScheme s ≠ .sip
  · rw [if_pos hc]
    exact Or.inl ⟨_, rfl⟩
  · rw [if_neg hc]
    cases parseURIScheme s with
    | sip => exact uriResult_shape _ _
    | sips => exact uriResult_shape _ _
    | tel => exact uriResult_shape _ _
    | error => exact Or.inl ⟨_, rfl⟩
    | urn => exact Or.inl ⟨_, rfl⟩
    | unknown => exact Or.inl ⟨_, rfl⟩

theorem ParseAddressValue_shape (s : Str) :
    (∃ e, ParseAddressValue s = (none, some e)) ∨
    (∃ na, ParseAddressValue s = (some na, none)) := by
  unfold ParseAddressValue
  by_cases hc : s.length = 0
  · rw [if_pos hc]
    exact Or.inl ⟨_, rfl⟩
  · rw [if_neg hc]
    exact addrResult_shape _

/-- C8 (amended): every parsing function stops at the first error;
`ParseURI` and `ParseAddressValue` then return a nil (`none`) result
alongside the error (and a non-nil result only without an error), but a
`SIPURI` out parameter is NOT rolled back: it keeps every field set by the
states that ran before the failure, e.g. the host parsed before an invalid
port. -/
theorem c8_first_error_propagation (s : Str) :
    ((ParseURI s).2.isSome → (ParseURI s).1 = none) ∧
    ((ParseURI s).2 = none → (ParseURI s).1.isSome) ∧
    ((ParseAddressValue s).2.isSome → (ParseAddressValue s).1 = none) ∧
    ((ParseAddressValue s).2 = none → (ParseAddressValue s).1.isSome) ∧
    ((ParseSIPURI (str "sip:host:x") {}).2 = some "invalid port number" ∧
     (ParseSIPURI (str "sip:host:x") {}).1.Host = str "host") := by
  refine ⟨?_, ?_, ?_, ?_, by decide⟩
  · intro h
    rcases ParseURI_shape s with ⟨e, he⟩ | ⟨u, hu⟩
    · rw [he]
    · rw [hu] at h; simp at h
  · intro h
    rcases ParseURI_shape s with ⟨e, he⟩ | ⟨u, hu⟩
    · rw [he] at h; simp at h
    · rw [hu]; rfl
  · intro h
    rcases ParseAddressValue_shape s with ⟨e, he⟩ | ⟨u, hu⟩
    · rw [he]
    · rw [hu] at h; simp at h
  · intro h
    rcases ParseAddressValue_shape s with ⟨e, he⟩ | ⟨u, hu⟩
    · rw [he] at h; simp at h
    · rw [hu]; rfl

/-- C8 counterexample: the claim as stated says a failing `ParseSIPURI`
leaves the out parameter without partially parsed fields; on the invalid
port input the error is returned while `Host` has already been filled
in. -/
theorem c8_partial_output_counterexample :
    (ParseSIPURI (str "sip:host:x") {}).2.isSome = true ∧
    (ParseSIPURI (str "sip:host:x") {}).1.Host = str "host" ∧
    ¬ (ParseSIPURI (str "sip:host:x") {}).1.Host = [] := by decide

/-- Witness for C8 at a concrete input. -/
theorem c8_first_error_propagation_witness :
    (ParseURI (str "x")).2.isSome = true ∧ (ParseURI (str "x")).1 = none :=
  ⟨by decide, (c8_first_error_propagation (str "x")).1 (by decide)⟩

/-! ### Tracing lemmas for the SIP FSM on structured inputs -/

theorem take_append_le {α : Type} (A B : List α) (n : Nat) (h : n ≤ A.length) :
    (A ++ B).take n = A.take n := by
  induction A generalizing n with
  | nil => simp at h; simp [h]
  | cons a t ih =>
    cases n with
    | zero => rfl
    | succ m =>
      simp only [List.cons_append, List.take_succ_cons]
      rw [ih m (by simpa using h)]

theorem take_append_ge {α : Type} (A B : List α) (n : Nat) (h : A.length ≤ n) :
    (A ++ B).take n = A ++ B.take (n - A.length) := by
  induction A generalizing n with
  | nil => simp
  | cons a t ih =>
    cases n with
    | zero => simp at h
    | succ m =>
      simp only [List.cons_append, List.take_succ_cons, List.length_cons]
      rw [ih m (by simpa using h)]
      simp only [Nat.succ_sub_succ]

theorem drop_append_ge {α : Type} (A B : List α) (n : Nat) (h : A.length ≤ n) :
    (A ++ B).drop n = B.drop (n - A.length) := by
  induction A generalizing n with
  | nil => simp
  | cons a t ih =>
    cases n with
    | zero => simp at h
    | succ m =>
      simp only [List.cons_append, List.drop_succ_cons, List.length_cons]
      rw [ih m (by simpa using h)]
      simp only [Nat.succ_sub_succ]

theorem ParseSIPURI_run (s : Str) (uri : SIPURI) (h : ¬ s.length = 0) :
    ParseSIPURI s uri = uriStateScheme uri s := by
  unfold ParseSIPURI
  rw [if_neg h]

theorem uriStateScheme_sip (uri : SIPURI) (rest : Str) :
    uriStateScheme uri (str "sip" ++ ':' :: rest) =
      uriStateSlashes { uri with Scheme := .sip } rest := by
  unfold uriStateScheme
  rw [if_neg (by simp [str])]
  rw [breakAt_append _ (str "sip") ':' rest (by decide) (by decide)]
  rfl

theorem uriStateSlashes_no (uri : SIPURI) (s : Str) (h : ¬ s.take 2 = str "//") :
    uriStateSlashes uri s =
      uriStateUser { uri with HierarhicalSlashes := false } s := by
  unfold uriStateSlashes cutSlashes
  rw [if_neg h]

theorem uriStateSlashes_yes (uri : SIPURI) (t : Str) :
    uriStateSlashes uri ('/' :: '/' :: t) =
      uriStateUser { uri with HierarhicalSlashes := true } t := by
  unfold uriStateSlashes cutSlashes
  rw [if_pos (show List.take 2 ('/' :: '/' :: t) = str "//" from rfl)]
  rfl

theorem uriStateUser_bracket (uri : SIPURI) (t : Str) :
    uriStateUser uri ('[' :: t) = uriStateHost uri ('[' :: t) := by
  unfold uriStateUser
  rw [show breakAt (fun c => decide (c = '[') || decide (c = '@')) ('[' :: t) =
      some ([], '[', t) from breakAt_append _ [] '[' t (by simp) (by decide)]
  rfl

theorem uriStateHost_bracket (uri : SIPURI) (t : Str) :
    uriStateHost uri ('[' :: t) = uriStateHostIPV6 uri ('[' :: t) := by
  unfold uriStateHost
  rw [show breakAt (fun c =>
      decide (c = '[') || decide (c = ':') || decide (c = ';') ||
      decide (c = '?')) ('[' :: t) = some ([], '[', t) from
    breakAt_append _ [] '[' t (by simp) (by decide)]
  rfl

theorem uriStateUriParams_nil (uri : SIPURI) :
    uriStateUriParams uri [] =
      ({ uri with Params := some NewParams, Headers := some NewParams }, none) := rfl

theorem ipv6_core (uri : SIPURI) (inner rest : Str)
    (hnb : ']' ∉ inner) (hle : inner.length ≤ 40) :
    uriStateHostIPV6 uri (('[' :: inner) ++ ']' :: rest) =
      (let uri2 : SIPURI := { uri with Host := ('[' :: inner) ++ [']'] }
       if _hrest : rest = [] then uriStateUriParams uri2 []
       else
         let c := rest.getD 0 ' '
         if c = ':' then uriStatePort uri2 (rest.drop 1)
         else if c = ';' then uriStateUriParams uri2 (rest.drop 1)
         else if c = '?' then uriStateHeaders uri2 (rest.drop 1)
         else uriStateUriParams uri2 []) := by
  have hA : ('[' :: inner).length = inner.length + 1 := by simp
  have hlen : (('[' :: inner) ++ ']' :: rest).length =
      inner.length + 2 + rest.length := by simp; omega
  have hge2 : inner.length + 2 ≤ min (('[' :: inner) ++ ']' :: rest).length 42 := by
    rw [hlen]; omega
  have hnbf : ']' ∉ '[' :: inner := by
    intro hm
    rcases List.mem_cons.mp hm with hm | hm
    · exact absurd hm.symm (by decide)
    · exact hnb hm
  have htake : (('[' :: inner) ++ ']' :: rest).take
      (min (('[' :: inner) ++ ']' :: rest).length 42) =
      ('[' :: inner) ++ ']' ::
        rest.take (min (('[' :: inner) ++ ']' :: rest).length 42 -
          (inner.length + 2)) := by
    rw [take_append_ge _ _ _ (by rw [hA]; omega)]
    have h1 : min (('[' :: inner) ++ ']' :: rest).length 42 - ('[' :: inner).length =
        (min (('[' :: inner) ++ ']' :: rest).length 42 - (inner.length + 2)) + 1 := by
      rw [hA]; omega
    rw [h1, List.take_succ_cons]
  have hidx : indexOfCh ']' ((('[' :: inner) ++ ']' :: rest).take
      (min (('[' :: inner) ++ ']' :: rest).length 42)) =
      some (inner.length + 1) := by
    rw [htake]
    have h2 := indexOfCh_append ']' ('[' :: inner)
      (rest.take (min (('[' :: inner) ++ ']' :: rest).length 42 -
        (inner.length + 2))) hnbf
    rw [h2, hA]
  have hhost : (('[' :: inner) ++ ']' :: rest).take (inner.length + 1 + 1) =
      ('[' :: inner) ++ [']'] := by
    rw [take_append_ge _ _ _ (by rw [hA]; omega)]
    have h1 : inner.length + 1 + 1 - ('[' :: inner).length = 1 := by
      rw [hA]; omega
    rw [h1]
    rfl
  unfold uriStateHostIPV6
  dsimp only
  rw [hidx]
  dsimp only
  rw [if_neg (by omega), hhost]
  by_cases hrest : rest = []
  · subst hrest
    rw [if_pos (by rw [hlen]; norm_num), dif_pos rfl]
  · rw [if_neg (by rw [hlen]; intro hc; apply hrest; cases rest with
      | nil => rfl
      | cons a b => simp at hc), dif_neg hrest]
    have hdrop : (('[' :: inner) ++ ']' :: rest).drop (inner.length + 1 + 1) =
        rest := by
      rw [drop_append_ge _ _ _ (by rw [hA]; omega)]
      have h1 : inner.length + 1 + 1 - ('[' :: inner).length = 1 := by
        rw [hA]; omega
      rw [h1]
      rfl
    rw [hdrop]

theorem uriStateHostIPV6_noclose (uri : SIPURI) (s : Str)
    (h : ']' ∉ s.take 42) :
    uriStateHostIPV6 uri s = (uri, some "IPV6 no closing bracket") := by
  unfold uriStateHostIPV6
  have hsub : ']' ∉ s.take (min s.length 42) := by
    intro hm
    apply h
    have : s.take (min s.length 42) = (s.take 42).take (min s.length 42) := by
      rw [List.take_take]
      congr 1
      omega
    rw [this] at hm
    exact List.take_subset _ _ hm
  dsimp only
  rw [indexOfCh_eq_none _ _ hsub]

theorem uriStateSlashes_no_head (uri : SIPURI) (a : Char) (t : Str)
    (ha : ¬ a = '/') :
    uriStateSlashes uri (a :: t) =
      uriStateUser { uri with HierarhicalSlashes := false } (a :: t) := by
  apply uriStateSlashes_no
  intro hEq
  have hh : (List.take 2 (a :: t)).getD 0 ' ' = '/' := by rw [hEq]; rfl
  simp only [List.take_succ_cons, List.getD_cons_zero] at hh
  exact ha hh

/-! ### Claim C4: IPv6 host length bounds -/

/-- C4 counterexample: a bracketed host whose content has 40 characters (one
more than the canonical 39-character maximum) parses successfully, so "fails
when the bracketed content exceeds 39 characters" is false as stated. -/
theorem c4_ipv6_bounds_counterexample :
    (str "2001:0db8:85a3:0000:0000:8a2e:0370:73340").length = 40 ∧
    (ParseSIPURI (str "sip:[2001:0db8:85a3:0000:0000:8a2e:0370:73340]") {}).2 =
      none ∧
    (ParseSIPURI (str "sip:[2001:0db8:85a3:0000:0000:8a2e:0370:73340]") {}).1.Host =
      str "[2001:0db8:85a3:0000:0000:8a2e:0370:73340]" := by decide

/-- C4 (amended): parsing a SIP URI with a bracketed host fails when the
bracketed content exceeds 40 characters (in particular for a 10-hextet
form), succeeds whenever the `]`-free content has at most 40 characters —
including `[::1]` and the full 8-hextet 39-character form — and stores the
host verbatim with both brackets intact. -/
theorem c4_ipv6_bounds (c : Str) (hnb : ']' ∉ c) :
    (c.length ≤ 40 →
      ParseSIPURI (str "sip:[" ++ c ++ str "]") {} =
        ({ Scheme := .sip, Host := ('[' :: c) ++ [']'],
           Params := some NewParams, Headers := some NewParams }, none)) ∧
    (41 ≤ c.length →
      (ParseSIPURI (str "sip:[" ++ c ++ str "]") {}).2 =
        some "IPV6 no closing bracket") ∧
    (ParseSIPURI (str "sip:[::1]") {}).2 = none ∧
    (ParseSIPURI (str "sip:[::1]") {}).1.Host = str "[::1]" ∧
    (ParseSIPURI (str "sip:[2001:0db8:85a3:0000:0000:8a2e:0370:7334]") {}).2 =
      none ∧
    (ParseSIPURI (str "sip:[2001:0db8:85a3:0000:0000:8a2e:0370:7334]") {}).1.Host =
      str "[2001:0db8:85a3:0000:0000:8a2e:0370:7334]" ∧
    (ParseSIPURI
      (str "sip:[2001:0db8:85a3:0000:0000:8a2e:0370:7334:ffff:ffff]") {}).2 =
      some "IPV6 no closing bracket" := by
  have hshape : str "sip:[" ++ c ++ str "]" =
      str "sip" ++ ':' :: ('[' :: (c ++ ']' :: [])) := rfl
  have hlen0 : ¬ (str "sip" ++ ':' :: ('[' :: (c ++ ']' :: []))).length = 0 := by
    simp [str]
  refine ⟨?_, ?_, by decide, by decide, by decide, by decide, by decide⟩
  · intro hle
    rw [hshape, ParseSIPURI_run _ _ hlen0, uriStateScheme_sip,
      uriStateSlashes_no_head _ _ _ (by decide), uriStateUser_bracket,
      uriStateHost_bracket,
      show ('[' : Char) :: (c ++ ']' :: []) = ('[' :: c) ++ ']' :: [] from rfl,
      ipv6_core _ _ _ hnb hle]
    dsimp only
    rw [dif_pos rfl, uriStateUriParams_nil]
  · intro hgt
    rw [hshape, ParseSIPURI_run _ _ hlen0, uriStateScheme_sip,
      uriStateSlashes_no_head _ _ _ (by decide), uriStateUser_bracket,
      uriStateHost_bracket]
    rw [uriStateHostIPV6_noclose]
    · intro hm
      rw [show (42 : Nat) = 41 + 1 from rfl, List.take_succ_cons,
        take_append_le c (']' :: []) 41 (by omega)] at hm
      rcases List.mem_cons.mp hm with hm | hm
      · exact absurd hm (by decide)
      · exact hnb (List.take_subset _ _ hm)

/-- Witness for C4 at the 39-character 8-hextet content. -/
theorem c4_ipv6_bounds_witness :
    ']' ∉ str "2001:0db8:85a3:0000:0000:8a2e:0370:7334" ∧
    (str "2001:0db8:85a3:0000:0000:8a2e:0370:7334").length ≤ 40 ∧
    ParseSIPURI (str "sip:[" ++ str "2001:0db8:85a3:0000:0000:8a2e:0370:7334" ++
        str "]") {} =
      ({ Scheme := .sip,
         Host := ('[' :: str "2001:0db8:85a3:0000:0000:8a2e:0370:7334") ++ [']'],
         Params := some NewParams, Headers := some NewParams }, none) :=
  ⟨by decide, by decide,
   (c4_ipv6_bounds (str "2001:0db8:85a3:0000:0000:8a2e:0370:7334")
      (by decide)).1 (by decide)⟩

/-! ### Claim C9: quoted display names keep their raw escaping -/

/-- A quoted-name body the scanner consumes without closing the quote: every
`"` is escaped, no escaped CR/LF, no dangling backslash. -/
def rawOk : Str → Bool
  | [] => true
  | a :: t =>
    if a = '"' then false
    else if a = '\\' then
      match t with
      | [] => false
      | c :: t2 =>
        decide (¬ c = Char.ofNat 10) && decide (¬ c = Char.ofNat 13) && rawOk t2
    else rawOk t

theorem quotedScan_cons_bs (t : Str) (e : Bool) (i : Nat) :
    quotedScan ('\\' :: t) e i = quotedScan t (!e) (i + 1) := by
  conv_lhs => unfold quotedScan
  rw [if_pos rfl]

theorem quotedScan_cons_esc (c : Char) (t : Str) (i : Nat) (hc : ¬ c = '\\')
    (h10 : ¬ c = Char.ofNat 10) (h13 : ¬ c = Char.ofNat 13) :
    quotedScan (c :: t) true i = quotedScan t false (i + 1) := by
  conv_lhs => unfold quotedScan
  rw [if_neg hc, if_pos rfl, if_neg (by rintro (hx | hx); exact h10 hx; exact h13 hx)]

theorem quotedScan_cons_plain (c : Char) (t : Str) (i : Nat) (hc : ¬ c = '\\')
    (hq : ¬ c = '"') :
    quotedScan (c :: t) false i = quotedScan t false (i + 1) := by
  conv_lhs => unfold quotedScan
  rw [if_neg hc, if_neg (by simp), if_neg hq]

theorem quotedScan_append_aux : ∀ (n : Nat) (pre suffix : Str) (i : Nat),
    pre.length ≤ n → rawOk pre = true →
    quotedScan (pre ++ suffix) false i = quotedScan suffix false (i + pre.length) := by
  intro n
  induction n with
  | zero =>
    intro pre suffix i hlen h
    have hpre : pre = [] := List.length_eq_zero.mp (by omega)
    subst hpre
    simp
  | succ n ih =>
    intro pre suffix i hlen h
    cases pre with
    | nil => simp
    | cons a t =>
      unfold rawOk at h
      by_cases ha : a = '"'
      · rw [if_pos ha] at h
        exact absurd h (by simp)
      · rw [if_neg ha] at h
        by_cases hb : a = '\\'
        · rw [if_pos hb] at h
          cases t with
          | nil => exact absurd h (by simp)
          | cons c t2 =>
            simp only [Bool.and_eq_true, decide_eq_true_eq] at h
            obtain ⟨⟨h10, h13⟩, ht⟩ := h
            subst hb
            show quotedScan ('\\' :: c :: (t2 ++ suffix)) false i = _
            rw [quotedScan_cons_bs]
            simp only [Bool.not_false]
            by_cases hc : c = '\\'
            · subst hc
              rw [quotedScan_cons_bs]
              simp only [Bool.not_true]
              rw [ih t2 suffix (i + 1 + 1) (by simp at hlen; omega) ht]
              congr 1
              simp
              omega
            · rw [quotedScan_cons_esc c (t2 ++ suffix) (i + 1) hc h10 h13]
              rw [ih t2 suffix (i + 1 + 1) (by simp at hlen; omega) ht]
              congr 1
              simp
              omega
        · rw [if_neg hb] at h
          show quotedScan (a :: (t ++ suffix)) false i = _
          rw [quotedScan_cons_plain a (t ++ suffix) i hb ha]
          rw [ih t suffix (i + 1) (by simp at hlen; omega) h]
          congr 1
          simp
          omega

theorem quotedScan_append (pre suffix : Str) (i : Nat) (h : rawOk pre = true) :
    quotedScan (pre ++ suffix) false i = quotedScan suffix false (i + pre.length) :=
  quotedScan_append_aux pre.length pre suffix i (Nat.le_refl _) h

theorem quotedScan_cons_quote (t : Str) (i : Nat) :
    quotedScan ('"' :: t) false i = .ok i := rfl

theorem quotedScan_cr (t : Str) (i : Nat) :
    quotedScan ('\\' :: Char.ofNat 13 :: t) false i =
      .error "invalid display name, not allowed to escape" := rfl

theorem addressStateDisplayName_quote (na : NameAddress) (t : Str) :
    addressStateDisplayName na ('"' :: t) = addressStateDisplayNameQuoted na t := by
  unfold addressStateDisplayName
  rw [show breakAt (fun c => decide (c = '"') || decide (c = '<') || decide (c = ';'))
      ('"' :: t) = some ([], '"', t) from breakAt_append _ [] '"' t (by simp) (by decide)]
  rfl

theorem quoted_closed_uri (na : NameAddress) (pre : Str) (h : rawOk pre = true) :
    addressStateDisplayNameQuoted na (pre ++ '"' :: str " <sip:x@h>") =
      addressStateUriBracket { na with DisplayName := pre } (str "sip:x@h>") := by
  unfold addressStateDisplayNameQuoted
  rw [quotedScan_append pre ('"' :: str " <sip:x@h>") 0 h, quotedScan_cons_quote,
    Nat.zero_add]
  dsimp only
  rw [take_append_le pre ('"' :: str " <sip:x@h>") pre.length (Nat.le_refl _),
    List.take_length,
    drop_append_ge pre ('"' :: str " <sip:x@h>") (pre.length + 1) (by omega)]
  have hd : pre.length + 1 - pre.length = 1 := by omega
  rw [hd]
  rfl

theorem quoted_closed_cr (na : NameAddress) (pre t : Str) (h : rawOk pre = true) :
    addressStateDisplayNameQuoted na (pre ++ '\\' :: Char.ofNat 13 :: t) =
      (na, some "invalid display name, not allowed to escape") := by
  unfold addressStateDisplayNameQuoted
  rw [quotedScan_append pre ('\\' :: Char.ofNat 13 :: t) 0 h, quotedScan_cr]

theorem quoted_closed_eof (na : NameAddress) (pre : Str) (h : rawOk pre = true) :
    addressStateDisplayNameQuoted na pre =
      (na, some "invalid uri display name inside quotes") := by
  unfold addressStateDisplayNameQuoted
  rw [show quotedScan pre false 0 = quotedScan (pre ++ []) false 0 from by
    rw [List.append_nil], quotedScan_append pre [] 0 h]
  rfl

/-- The parse of the fixed bracketed URI text used in the C9 statements. -/
def xhURI : URI :=
  .sip { Scheme := .sip, User := str "x", Host := str "h",
         Params := some NewParams, Headers := some NewParams }

theorem addressStateUriBracket_concrete (na : NameAddress) :
    addressStateUriBracket na (str "sip:x@h>") =
      ({ na with URI := some xhURI }, none) := rfl

/-- C9 counterexample: for the quoted display name `"a\"b"` the stored
DisplayName keeps the backslash escape RAW (`a\"b`), it is not resolved to
the literal form `a"b`. -/
theorem c9_escape_resolution_counterexample :
    ((ParseAddressValue (str "\"a\\\"b\" <sip:x@h>")).1.map
        NameAddress.DisplayName = some (str "a\\\"b")) ∧
    ¬ ((ParseAddressValue (str "\"a\\\"b\" <sip:x@h>")).1.map
        NameAddress.DisplayName = some (str "a\"b")) := by
  decide

/-- C9 (amended): a quoted display name is stored VERBATIM — every
backslash escape the scanner consumed is kept raw in `DisplayName`, not
resolved to its literal character; an escaped CR is rejected with the
escape error, and a missing closing quote is rejected as an unterminated
quoted name.  `rawOk pre` says the span escapes every `"` and never
escapes CR/LF or ends in a dangling backslash. -/
theorem c9_quoted_display_raw (pre : Str) (h : rawOk pre = true) :
    (ParseAddressValue ('"' :: (pre ++ '"' :: str " <sip:x@h>")) =
      (some { DisplayName := pre, URI := some xhURI, Params := NewParams },
        none)) ∧
    (∀ t : Str, ParseAddressValue ('"' :: (pre ++ '\\' :: Char.ofNat 13 :: t)) =
      (none, some "invalid display name, not allowed to escape")) ∧
    (ParseAddressValue ('"' :: pre) =
      (none, some "invalid uri display name inside quotes")) := by
  refine ⟨?_, fun t => ?_, ?_⟩
  · unfold ParseAddressValue
    rw [if_neg (by simp), addressStateDisplayName_quote, quoted_closed_uri _ pre h,
      addressStateUriBracket_concrete]
    rfl
  · unfold ParseAddressValue
    rw [if_neg (by simp), addressStateDisplayName_quote, quoted_closed_cr _ pre t h]
    rfl
  · unfold ParseAddressValue
    rw [if_neg (by simp), addressStateDisplayName_quote, quoted_closed_eof _ pre h]
    rfl

theorem c9_quoted_display_raw_witness :
    rawOk (str "a\\\"b") = true ∧
    ParseAddressValue ('"' :: (str "a\\\"b" ++ '"' :: str " <sip:x@h>")) =
      (some { DisplayName := str "a\\\"b", URI := some xhURI,
              Params := NewParams }, none) :=
  ⟨by decide, (c9_quoted_display_raw (str "a\\\"b") (by decide)).1⟩

/-! ### Claim C10: any `*` before the first `;` is the wildcard -/

theorem find_eq_breakAt (p : Char → Bool) (s : Str) :
    s.find? p = (breakAt p s).map (fun v => v.2.1) := by
  induction s with
  | nil => rfl
  | cons c t ih =>
    cases hc : p c with
    | true =>
      rw [List.find?_cons_of_pos _ hc]
      unfold breakAt
      rw [if_pos hc]
      rfl
    | false =>
      rw [List.find?_cons_of_neg _ (by simp [hc]), ih]
      conv_rhs => unfold breakAt
      rw [if_neg (by simp [hc])]
      cases breakAt p t with
      | none => rfl
      | some v => rfl

theorem addressStateDisplayName_bare (na : NameAddress) (s : Str)
    (hq : '"' ∉ s) (hlt : '<' ∉ s) :
    addressStateDisplayName na s = addressStateUri na s := by
  unfold addressStateDisplayName
  cases hb : breakAt (fun c =>
      decide (c = '"') || decide (c = '<') || decide (c = ';')) s with
  | none => rfl
  | some v =>
    obtain ⟨pre, c, post⟩ := v
    obtain ⟨hsE, hpc, hpre⟩ := breakAt_some _ _ _ _ _ hb
    have hcs : c ∈ s := by
      rw [hsE]
      exact List.mem_append_right _ (List.mem_cons_self _ _)
    simp only [Bool.or_eq_true, decide_eq_true_eq] at hpc
    rcases hpc with (h1 | h2) | h3
    · exact absurd (h1 ▸ hcs) hq
    · exact absurd (h2 ▸ hcs) hlt
    · subst h3
      dsimp only
      rw [if_neg (by decide), if_neg (by decide)]

/-- C10: in unbracketed address text — no double quote and no angle
bracket anywhere — any `*` occurring before the first `;` (i.e. the first
`*`-or-`;` hit of the scan is a `*`) makes `ParseAddressValue` return the
wildcard SIP URI (Host `*`, Wildcard true) with empty display name and
empty params, discarding every other character of the text. -/
theorem c10_star_anywhere_wildcard (s : Str)
    (hq : '"' ∉ s) (hlt : '<' ∉ s)
    (hstar : s.find? (fun c => decide (c = '*') || decide (c = ';')) = some '*') :
    ParseAddressValue s =
      (some { DisplayName := [],
              URI := some (.sip { Scheme := .sip, Host := str "*",
                                  Wildcard := true }),
              Params := NewParams }, none) := by
  have hne : ¬ s.length = 0 := by
    intro h0
    rw [List.length_eq_zero.mp h0] at hstar
    exact absurd hstar (by simp)
  rw [find_eq_breakAt] at hstar
  unfold ParseAddressValue
  rw [if_neg hne, addressStateDisplayName_bare _ s hq hlt]
  unfold addressStateUri
  rw [if_neg hne]
  cases hb : breakAt (fun c => decide (c = '*') || decide (c = ';')) s with
  | none => rw [hb] at hstar; exact absurd hstar (by simp)
  | some v =>
    obtain ⟨pre, c, post⟩ := v
    rw [hb] at hstar
    have hc : c = '*' := Option.some.inj hstar
    subst hc
    rfl

theorem c10_star_anywhere_wildcard_witness :
    ('"' ∉ str "sip:a*b@h;tag=1" ∧ '<' ∉ str "sip:a*b@h;tag=1" ∧
      (str "sip:a*b@h;tag=1").find?
        (fun c => decide (c = '*') || decide (c = ';')) = some '*') ∧
    ParseAddressValue (str "sip:a*b@h;tag=1") =
      (some { DisplayName := [],
              URI := some (.sip { Scheme := .sip, Host := str "*",
                                  Wildcard := true }),
              Params := NewParams }, none) :=
  ⟨⟨by decide, by decide, by decide⟩,
    c10_star_anywhere_wildcard (str "sip:a*b@h;tag=1")
      (by decide) (by decide) (by decide)⟩

/-! ### Claim C3: TEL to SIP conversion -/

/-- The wording of the spec: the number with every non-digit visual
separator removed, a single leading `+` kept. -/
def keepPlusDigits (n : Str) : Str :=
  if n.take 1 = str "+" then '+' :: (n.drop 1).filter isDigitCh
  else n.filter isDigitCh

theorem removeVisual_eq_keepPlusDigits (n : Str) :
    removeVisualFromNumber n = keepPlusDigits n := by
  cases n with
  | nil => rfl
  | cons c t =>
    show (if c = '+' then [c] else if isDigitCh c then [c] else []) ++
        t.filter isDigitCh = keepPlusDigits (c :: t)
    unfold keepPlusDigits
    by_cases hc : c = '+'
    · subst hc
      rw [if_pos rfl, if_pos (show ('+' :: t).take 1 = str "+" from rfl)]
      rfl
    · have hcp : ¬ ((c :: t).take 1 = str "+") := by
        intro hEq
        have h1 : (c :: t).take 1 = [c] := rfl
        have h2 : str "+" = ['+'] := rfl
        rw [h1, h2] at hEq
        exact hc (by simpa using hEq)
      rw [if_neg hc, if_neg hcp]
      by_cases hd : isDigitCh c <;> simp [hd, List.filter_cons]

theorem Remove_wf {hp : HeaderParams} (h : hp.Wf) (k : Str) :
    (hp.Remove k).Wf := by
  cases hm : mapGet hp.keys k with
  | none =>
    have he : hp.Remove k = hp := by
      unfold HeaderParams.Remove
      rw [hm]
    rw [he]
    exact h
  | some i => exact (Remove_spec h k i hm).2

/-- C3 (spec-modelled scenario): `TELtoSIP` fails with the
phone-context-required error when the `phone-context` parameter is absent
or empty; with a non-empty `phone-context` value `d` it succeeds, the SIP
user is the TEL number with every non-digit visual separator removed (a
single leading `+` kept), the host is `d`, and the parameters are the
remaining TEL parameters with `phone-context` removed and
`user-context=phone` appended (literally appended at the end when the key
is fresh); the scenario: parsing
`tel:+1-201-555-0123;phone-context=example.com` and converting renders as
`sip:+12015550123@example.com;user-context=phone`. -/
theorem c3_tel_to_sip (tel : TELURI) (sip0 : SIPURI) (ps : HeaderParams)
    (hps : tel.Params = some ps) (hwf : ps.Wf) :
    (((ps.Get (str "phone-context")).2 = false ∨
        (ps.Get (str "phone-context")).1 = []) →
      (TELtoSIP tel sip0).2.2 = some
        "phone-context parameter is required for TEL-URI to SIP conversion") ∧
    (∀ d : Str, ps.Get (str "phone-context") = (d, true) → ¬ d = [] →
      (TELtoSIP tel sip0).2.2 = none ∧
      (TELtoSIP tel sip0).2.1.User = keepPlusDigits tel.Number ∧
      (TELtoSIP tel sip0).2.1.Host = d ∧
      (TELtoSIP tel sip0).2.1.Params =
        some ((ps.Remove (str "phone-context")).Add
          [⟨str "user-context", str "phone"⟩]) ∧
      (str "user-context" ∉ (ps.Remove (str "phone-context")).data.map Pair.Key →
        ((ps.Remove (str "phone-context")).Add
            [⟨str "user-context", str "phone"⟩]).data =
          (ps.Remove (str "phone-context")).data ++
            [⟨str "user-context", str "phone"⟩])) ∧
    ((ParseTELURI (str "tel:+1-201-555-0123;phone-context=example.com") {}).2 =
        none ∧
      ((TELtoSIP
          (ParseTELURI (str "tel:+1-201-555-0123;phone-context=example.com")
            {}).1 {}).2.1).StringWrite =
        str "sip:+12015550123@example.com;user-context=phone" ∧
      (TELtoSIP
          (ParseTELURI (str "tel:+1-201-555-0123;phone-context=example.com")
            {}).1 {}).2.2 = none) := by
  refine ⟨?_, ?_, by decide⟩
  · intro hg
    unfold TELtoSIP
    rw [hps]
    dsimp only
    rw [if_pos hg]
  · intro d hg hd
    unfold TELtoSIP
    rw [hps]
    dsimp only
    have hcond : ¬ (((ps.Get (str "phone-context")).2 = false) ∨
        (ps.Get (str "phone-context")).1 = []) := by
      rw [hg]
      rintro (h1 | h1)
      · exact absurd h1 (by simp)
      · exact hd h1
    rw [if_neg hcond]
    refine ⟨rfl, removeVisual_eq_keepPlusDigits tel.Number, ?_, rfl, ?_⟩
    · show (ps.Get (str "phone-context")).1 = d
      rw [hg]
    · intro hnot
      have hw1 : (ps.Remove (str "phone-context")).Wf := Remove_wf hwf _
      have hm : mapGet (ps.Remove (str "phone-context")).keys
          (str "user-context") = none := Wf.mapGet_eq_none hw1 _ hnot
      exact (add1_new_spec hw1 ⟨str "user-context", str "phone"⟩ hm).2.1

theorem c3_tel_to_sip_witness :
    ({ Number := str "+1-2",
       Params := some (NewParams.Add
         [⟨str "phone-context", str "example.com"⟩]) } : TELURI).Params =
      some (NewParams.Add [⟨str "phone-context", str "example.com"⟩]) ∧
    (NewParams.Add [⟨str "phone-context", str "example.com"⟩]).Wf ∧
    (TELtoSIP
        { Number := str "+1-2",
          Params := some (NewParams.Add
            [⟨str "phone-context", str "example.com"⟩]) } {}).2.1.Host =
      str "example.com" :=
  ⟨rfl, by decide,
    ((c3_tel_to_sip _ {} _ rfl (by decide)).2.1 (str "example.com")
      (by decide) (by decide)).2.2.1⟩

/-! ### Claim C1: rendering and reparsing -/

theorem char_digit_toNat (k : Nat) (hk : k < 10) :
    (Char.ofNat (48 + k)).toNat = 48 + k ∧
    isDigitCh (Char.ofNat (48 + k)) = true := by
  interval_cases k <;> exact ⟨by decide, by decide⟩

theorem digitsAux_small (n : Nat) (hn : n < 10) (acc : Str) (a : Nat) :
    (natToDigitsAux n acc).foldl (fun x c => x * 10 + (c.toNat - 48)) a =
      acc.foldl (fun x c => x * 10 + (c.toNat - 48)) (a * 10 + n) := by
  unfold natToDigitsAux
  dsimp only
  rw [dif_pos hn, List.foldl_cons, Nat.mod_eq_of_lt hn,
    (char_digit_toNat n hn).1]
  congr 1
  omega

theorem digitsAux_val (N : Nat) : ∀ n, n ≤ N → ∀ (acc : Str) (a : Nat),
    ∃ m, 0 < m ∧
    (natToDigitsAux n acc).foldl (fun x c => x * 10 + (c.toNat - 48)) a =
      acc.foldl (fun x c => x * 10 + (c.toNat - 48)) (a * m + n) := by
  induction N with
  | zero =>
    intro n hn acc a
    exact ⟨10, by omega, by rw [digitsAux_small n (by omega) acc a]⟩
  | succ N ih =>
    intro n hn acc a
    by_cases h10 : n < 10
    · exact ⟨10, by omega, by rw [digitsAux_small n h10 acc a]⟩
    · obtain ⟨m, hm, hrec⟩ :=
        ih (n / 10) (by omega) (Char.ofNat (48 + n % 10) :: acc) a
      refine ⟨m * 10, by positivity, ?_⟩
      unfold natToDigitsAux
      dsimp only
      rw [dif_neg h10, hrec, List.foldl_cons,
        (char_digit_toNat (n % 10) (by omega)).1]
      have hk : a * (m * 10) = a * m * 10 := (Nat.mul_assoc a m 10).symm
      rw [hk]
      congr 1
      generalize a * m = k
      omega

theorem digitsVal_natToDigits (n : Nat) : digitsVal (natToDigits n) = n := by
  obtain ⟨m, hm, h⟩ := digitsAux_val n n (Nat.le_refl n) [] 0
  unfold digitsVal natToDigits
  rw [h]
  simp

theorem allDigits_aux (N : Nat) : ∀ n, n ≤ N → ∀ acc, allDigits acc = true →
    allDigits (natToDigitsAux n acc) = true := by
  induction N with
  | zero =>
    intro n hn acc hacc
    have hn0 : n = 0 := by omega
    subst hn0
    unfold natToDigitsAux
    dsimp only
    rw [dif_pos (by omega)]
    rw [show allDigits (Char.ofNat (48 + 0 % 10) :: acc) =
        (isDigitCh (Char.ofNat (48 + 0 % 10)) && allDigits acc) from rfl]
    rw [hacc, (char_digit_toNat (0 % 10) (by omega)).2]
    rfl
  | succ N ih =>
    intro n hn acc hacc
    by_cases h10 : n < 10
    · unfold natToDigitsAux
      dsimp only
      rw [dif_pos h10]
      rw [show allDigits (Char.ofNat (48 + n % 10) :: acc) =
          (isDigitCh (Char.ofNat (48 + n % 10)) && allDigits acc) from rfl]
      rw [hacc, (char_digit_toNat (n % 10) (by omega)).2]
      rfl
    · unfold natToDigitsAux
      dsimp only
      rw [dif_neg h10]
      refine ih (n / 10) (by omega) _ ?_
      rw [show allDigits (Char.ofNat (48 + n % 10) :: acc) =
          (isDigitCh (Char.ofNat (48 + n % 10)) && allDigits acc) from rfl]
      rw [hacc, (char_digit_toNat (n % 10) (by omega)).2]
      rfl

theorem allDigits_natToDigits (n : Nat) : allDigits (natToDigits n) = true :=
  allDigits_aux n n (Nat.le_refl n) [] rfl

theorem natToDigitsAux_ne_nil (N : Nat) : ∀ n, n ≤ N → ∀ acc : Str,
    ¬ natToDigitsAux n acc = [] := by
  induction N with
  | zero =>
    intro n hn acc
    have hn0 : n = 0 := by omega
    subst hn0
    unfold natToDigitsAux
    dsimp only
    rw [dif_pos (by omega)]
    exact List.cons_ne_nil _ _
  | succ N ih =>
    intro n hn acc
    by_cases h10 : n < 10
    · unfold natToDigitsAux
      dsimp only
      rw [dif_pos h10]
      exact List.cons_ne_nil _ _
    · unfold natToDigitsAux
      dsimp only
      rw [dif_neg h10]
      exact ih (n / 10) (by omega) _

theorem atoi_digits (s : Str) (hne : ¬ s = []) (hd : allDigits s = true)
    (hle : digitsVal s ≤ 9223372036854775807) :
    atoi s = some ((digitsVal s : Int)) := by
  cases s with
  | nil => exact absurd rfl hne
  | cons c t =>
    have hc : isDigitCh c = true := by
      have h2 := hd
      rw [show allDigits (c :: t) = (isDigitCh c && allDigits t) from rfl,
        Bool.and_eq_true] at h2
      exact h2.1
    have hcp : ¬ c = '+' := by
      intro h
      subst h
      exact absurd hc (by decide)
    have hcm : ¬ c = '-' := by
      intro h
      subst h
      exact absurd hc (by decide)
    unfold atoi
    split
    · rename_i heq
      exact absurd heq (List.cons_ne_nil c t)
    · rename_i t2 heq
      injection heq with h1 h2
      exact absurd h1 hcp
    · rename_i t2 heq
      injection heq with h1 h2
      exact absurd h1 hcm
    · rw [if_pos ⟨hd, hle⟩]

theorem atoi_natToDigits (n : Nat) (hle : n ≤ 9223372036854775807) :
    atoi (natToDigits n) = some ((n : Int)) := by
  have h1 := digitsVal_natToDigits n
  rw [atoi_digits (natToDigits n)
    (natToDigitsAux_ne_nil n n (Nat.le_refl n) [])
    (allDigits_natToDigits n) (by rw [h1]; exact hle), h1]

/-- Character conditions on one stored pair under which its rendered chunk
survives the `UnmarshalParams` scan unchanged: nonempty key, no `=` in the
key, and neither the separator, the terminator, `@` nor `[` anywhere. -/
def pairCharsOk (sep endc : Char) (p : Pair) : Prop :=
  ¬ p.Key = [] ∧ '=' ∉ p.Key ∧
  (∀ c ∈ p.Key, ¬ c = sep ∧ ¬ c = endc ∧ ¬ c = '@' ∧ ¬ c = '[') ∧
  (∀ c ∈ p.Val, ¬ c = sep ∧ ¬ c = endc ∧ ¬ c = '@' ∧ ¬ c = '[')

instance (sep endc : Char) (p : Pair) : Decidable (pairCharsOk sep endc p) := by
  unfold pairCharsOk
  infer_instance

/-- The concatenation of rendered chunks (what the `ToString` fold builds). -/
def chunksCat (sep : Char) : List Pair → Str
  | [] => []
  | p :: t => pairChunk sep p ++ chunksCat sep t

theorem chunksFold_acc (sep : Char) (L : List Pair) : ∀ acc : Str,
    L.foldl (fun a p => a ++ pairChunk sep p) acc = acc ++ chunksCat sep L := by
  induction L with
  | nil =>
    intro acc
    simp [chunksCat]
  | cons p t ih =>
    intro acc
    rw [List.foldl_cons, ih (acc ++ pairChunk sep p)]
    rw [show chunksCat sep (p :: t) = pairChunk sep p ++ chunksCat sep t from rfl]
    rw [List.append_assoc]

theorem chunksFold_eq (sep : Char) (L : List Pair) :
    chunksFold sep L = chunksCat sep L := by
  unfold chunksFold
  rw [chunksFold_acc sep L []]
  rfl

theorem mem_chunksCat (sep : Char) (L : List Pair) (c : Char)
    (h : c ∈ chunksCat sep L) :
    ∃ p ∈ L, c = sep ∨ c ∈ p.Key ∨ c = '=' ∨ c ∈ p.Val := by
  induction L with
  | nil => simp [chunksCat] at h
  | cons p t ih =>
    rw [show chunksCat sep (p :: t) = pairChunk sep p ++ chunksCat sep t from rfl]
      at h
    rcases List.mem_append.mp h with h1 | h2
    · refine ⟨p, List.mem_cons_self p t, ?_⟩
      unfold pairChunk at h1
      rcases List.mem_append.mp h1 with h2 | h3
      · rcases List.mem_cons.mp h2 with h4 | h5
        · exact Or.inl h4
        · exact Or.inr (Or.inl h5)
      · by_cases hv : p.Val = []
        · rw [if_pos hv] at h3
          simp at h3
        · rw [if_neg hv] at h3
          rcases List.mem_cons.mp h3 with h4 | h5
          · exact Or.inr (Or.inr (Or.inl h4))
          · exact Or.inr (Or.inr (Or.inr h5))
    · obtain ⟨q, hq, hc⟩ := ih h2
      exact ⟨q, List.mem_cons_of_mem _ hq, hc⟩

theorem upCommit_core (hp : HeaderParams) (p : Pair) (hkne : ¬ p.Key = [])
    (hkeq : '=' ∉ p.Key) :
    upCommit hp (p.Key ++ (if p.Val = [] then [] else '=' :: p.Val)) =
      hp.Add [p] := by
  unfold upCommit
  by_cases hv : p.Val = []
  · rw [if_pos hv, List.append_nil, if_neg hkne]
    unfold splitPairEq
    rw [breakAt_eq_none _ _ (fun c hc => by
      simp only [decide_eq_true_eq]
      exact fun h => hkeq (h ▸ hc))]
    rw [show (⟨p.Key, []⟩ : Pair) = p from pair_ext rfl hv.symm]
  · rw [if_neg hv, if_neg (by
      intro h
      rcases List.append_eq_nil.mp h with ⟨h1, h2⟩
      exact List.cons_ne_nil _ _ h2)]
    unfold splitPairEq
    rw [breakAt_append _ p.Key '=' p.Val (fun d hd => by
      simp only [decide_eq_true_eq]
      exact fun h => hkeq (h ▸ hd)) (by decide)]

theorem upGo_cons_other (sep endc c : Char) (t : Str) (hp : HeaderParams)
    (seg : Str) (i : Nat) (h1 : ¬ c = endc) (h2 : ¬ c = sep) :
    upGo sep endc (c :: t) hp seg i = upGo sep endc t hp (seg ++ [c]) (i + 1) := by
  conv_lhs => unfold upGo
  rw [if_neg h1, if_neg h2]

theorem upGo_cons_sep (sep endc : Char) (t : Str) (hp : HeaderParams)
    (seg : Str) (i : Nat) (h1 : ¬ sep = endc) :
    upGo sep endc (sep :: t) hp seg i =
      upGo sep endc t (upCommit hp seg) [] (i + 1) := by
  conv_lhs => unfold upGo
  rw [if_neg h1, if_pos rfl]

theorem upGo_cons_endc (sep endc : Char) (t : Str) (hp : HeaderParams)
    (seg : Str) (i : Nat) :
    upGo sep endc (endc :: t) hp seg i = (i, upCommit hp seg) := by
  conv_lhs => unfold upGo
  rw [if_pos rfl]

theorem upGo_accum (sep endc : Char) (content : Str)
    (h : ∀ c ∈ content, ¬ c = endc ∧ ¬ c = sep) :
    ∀ (rest seg : Str) (hp : HeaderParams) (i : Nat),
    upGo sep endc (content ++ rest) hp seg i =
      upGo sep endc rest hp (seg ++ content) (i + content.length) := by
  induction content with
  | nil =>
    intro rest seg hp i
    simp
  | cons c t ih =>
    intro rest seg hp i
    obtain ⟨h1, h2⟩ := h c (List.mem_cons_self c t)
    show upGo sep endc (c :: (t ++ rest)) hp seg i = _
    rw [upGo_cons_other sep endc c _ hp seg i h1 h2]
    rw [ih (fun d hd => h d (List.mem_cons_of_mem c hd)) rest (seg ++ [c]) hp
      (i + 1)]
    have e1 : seg ++ [c] ++ t = seg ++ c :: t := by simp
    have e2 : i + 1 + t.length = i + (c :: t).length := by
      simp only [List.length_cons]
      omega
    rw [e1, e2]

theorem chunkCore_free (sep endc : Char) (p : Pair) (hs : ¬ '=' = sep)
    (he : ¬ '=' = endc) (hpo : pairCharsOk sep endc p) :
    ∀ c ∈ p.Key ++ (if p.Val = [] then [] else '=' :: p.Val),
      ¬ c = endc ∧ ¬ c = sep := by
  intro c hc
  rcases List.mem_append.mp hc with h1 | h2
  · exact ⟨(hpo.2.2.1 c h1).2.1, (hpo.2.2.1 c h1).1⟩
  · by_cases hv : p.Val = []
    · rw [if_pos hv] at h2
      simp at h2
    · rw [if_neg hv] at h2
      rcases List.mem_cons.mp h2 with h3 | h4
      · subst h3
        exact ⟨he, hs⟩
      · exact ⟨(hpo.2.2.2 c h4).2.1, (hpo.2.2.2 c h4).1⟩

theorem upGo_chunks (sep endc : Char) (hne : ¬ sep = endc) (hs : ¬ '=' = sep)
    (he : ¬ '=' = endc) (L : List Pair) (hL : ∀ p ∈ L, pairCharsOk sep endc p)
    (tail : Str) (htail : tail = [] ∨ ∃ r, tail = endc :: r) :
    ∀ (hp : HeaderParams) (seg : Str) (i : Nat),
    upGo sep endc (chunksCat sep L ++ tail) hp seg i =
      (i + (chunksCat sep L).length, (upCommit hp seg).Add L) := by
  induction L with
  | nil =>
    intro hp seg i
    rcases htail with h | ⟨r, h⟩
    · subst h
      show upGo sep endc [] hp seg i =
        (i + (chunksCat sep []).length, (upCommit hp seg).Add [])
      show (i, upCommit hp seg) = _
      simp [chunksCat, HeaderParams.Add]
    · subst h
      show upGo sep endc (endc :: r) hp seg i =
        (i + (chunksCat sep []).length, (upCommit hp seg).Add [])
      rw [upGo_cons_endc]
      simp [chunksCat, HeaderParams.Add]
  | cons p t ih =>
    intro hp seg i
    obtain ⟨hkne, hkeq, hkey, hval⟩ := hL p (List.mem_cons_self p t)
    have hshape : chunksCat sep (p :: t) ++ tail =
        sep :: ((p.Key ++ (if p.Val = [] then [] else '=' :: p.Val)) ++
          (chunksCat sep t ++ tail)) := by
      rw [show chunksCat sep (p :: t) = pairChunk sep p ++ chunksCat sep t
        from rfl]
      unfold pairChunk
      simp [List.append_assoc]
    rw [hshape]
    rw [upGo_cons_sep sep endc _ hp seg i hne]
    rw [upGo_accum sep endc _
      (chunkCore_free sep endc p hs he ⟨hkne, hkeq, hkey, hval⟩)
      (chunksCat sep t ++ tail) [] (upCommit hp seg) (i + 1)]
    rw [ih (fun q hq => hL q (List.mem_cons_of_mem p hq))
      (upCommit hp seg)
      ([] ++ (p.Key ++ if p.Val = [] then [] else '=' :: p.Val))
      (i + 1 + (p.Key ++ if p.Val = [] then [] else '=' :: p.Val).length)]
    rw [List.nil_append,
      upCommit_core (upCommit hp seg) p hkne hkeq]
    simp only [Prod.mk.injEq]
    constructor
    · rw [show chunksCat sep (p :: t) = pairChunk sep p ++ chunksCat sep t
        from rfl]
      unfold pairChunk
      simp only [List.length_append, List.length_cons, List.cons_append]
      omega
    · rfl

theorem unmarshal_ToString (sep endc : Char) (hne : ¬ sep = endc)
    (hs : ¬ '=' = sep) (he : ¬ '=' = endc) (P : HeaderParams)
    (hd : ¬ P.data = []) (hL : ∀ p ∈ P.data, pairCharsOk sep endc p)
    (tail : Str) (htail : tail = [] ∨ ∃ r, tail = endc :: r) :
    upGo sep endc (P.ToString sep ++ tail) NewParams [] 0 =
      ((P.ToString sep).length, NewParams.Add P.data) := by
  cases hdata : P.data with
  | nil => exact absurd hdata hd
  | cons p t =>
    obtain ⟨hkne, hkeq, hkey, hval⟩ := hL p (by rw [hdata]; exact List.mem_cons_self p t)
    unfold HeaderParams.ToString
    rw [hdata, if_neg (List.cons_ne_nil p t), chunksFold_eq]
    have hdrop : (chunksCat sep (p :: t)).drop 1 =
        (p.Key ++ (if p.Val = [] then [] else '=' :: p.Val)) ++ chunksCat sep t := by
      rw [show chunksCat sep (p :: t) =
          sep :: ((p.Key ++ (if p.Val = [] then [] else '=' :: p.Val)) ++
            chunksCat sep t) from by
        rw [show chunksCat sep (p :: t) = pairChunk sep p ++ chunksCat sep t
          from rfl]
        unfold pairChunk
        simp [List.append_assoc]]
      rfl
    rw [hdrop, List.append_assoc]
    rw [upGo_accum sep endc _
      (chunkCore_free sep endc p hs he ⟨hkne, hkeq, hkey, hval⟩)
      (chunksCat sep t ++ tail) [] NewParams 0]
    rw [upGo_chunks sep endc hne hs he t
      (fun q hq => hL q (by rw [hdata]; exact List.mem_cons_of_mem p hq))
      tail htail NewParams
      ([] ++ (p.Key ++ if p.Val = [] then [] else '=' :: p.Val))
      (0 + (p.Key ++ if p.Val = [] then [] else '=' :: p.Val).length)]
    rw [List.nil_append, upCommit_core NewParams p hkne hkeq]
    simp only [Prod.mk.injEq]
    constructor
    · simp only [List.length_append]
      omega
    · rfl

theorem ToString_shape (sep : Char) (P : HeaderParams) (p : Pair)
    (t : List Pair) (hdata : P.data = p :: t) :
    P.ToString sep =
      (p.Key ++ (if p.Val = [] then [] else '=' :: p.Val)) ++ chunksCat sep t := by
  unfold HeaderParams.ToString
  rw [hdata, if_neg (List.cons_ne_nil p t), chunksFold_eq]
  rw [show chunksCat sep (p :: t) =
      sep :: ((p.Key ++ (if p.Val = [] then [] else '=' :: p.Val)) ++
        chunksCat sep t) from by
    rw [show chunksCat sep (p :: t) = pairChunk sep p ++ chunksCat sep t
      from rfl]
    unfold pairChunk
    simp [List.append_assoc]]
  rfl

theorem ToString_ne_nil (sep endc : Char) (P : HeaderParams)
    (hd : ¬ P.data = []) (hL : ∀ p ∈ P.data, pairCharsOk sep endc p) :
    ¬ P.ToString sep = [] := by
  cases hdata : P.data with
  | nil => exact absurd hdata hd
  | cons p t =>
    rw [ToString_shape sep P p t hdata]
    intro h
    rcases List.append_eq_nil.mp h with ⟨h1, _⟩
    rcases List.append_eq_nil.mp h1 with ⟨h2, _⟩
    exact (hL p (by rw [hdata]; exact List.mem_cons_self p t)).1 h2

theorem ToString_no (sep endc : Char) (P : HeaderParams)
    (hL : ∀ p ∈ P.data, pairCharsOk sep endc p)
    (hsep : ¬ sep = '[' ∧ ¬ sep = '@' ∧ ¬ sep = endc)
    (hendc : ¬ '=' = endc) :
    ∀ c ∈ P.ToString sep, ¬ c = '[' ∧ ¬ c = '@' ∧ ¬ c = endc := by
  intro c hc
  unfold HeaderParams.ToString at hc
  by_cases hd : P.data = []
  · rw [if_pos hd] at hc
    simp at hc
  · rw [if_neg hd, chunksFold_eq] at hc
    have hc2 := List.drop_subset 1 (chunksCat sep P.data) hc
    obtain ⟨p, hp, hor⟩ := mem_chunksCat sep P.data c hc2
    obtain ⟨_, _, hkey, hval⟩ := hL p hp
    rcases hor with h | h | h | h
    · subst h
      exact hsep
    · exact ⟨(hkey c h).2.2.2, (hkey c h).2.2.1, (hkey c h).2.1⟩
    · subst h
      exact ⟨by decide, by decide, hendc⟩
    · exact ⟨(hval c h).2.2.2, (hval c h).2.2.1, (hval c h).2.1⟩

theorem UnmarshalParams_ToString (sep endc : Char) (hne : ¬ sep = endc)
    (hs : ¬ '=' = sep) (he : ¬ '=' = endc) (P : HeaderParams)
    (hd : ¬ P.data = []) (hL : ∀ p ∈ P.data, pairCharsOk sep endc p)
    (tail : Str) (htail : tail = [] ∨ ∃ r, tail = endc :: r) :
    UnmarshalParams (P.ToString sep ++ tail) sep endc NewParams =
      ((P.ToString sep).length, NewParams.Add P.data) := by
  unfold UnmarshalParams
  exact unmarshal_ToString sep endc hne hs he P hd hL tail htail

theorem equalsCore_of_data_eq {P Q : HeaderParams} (h1 : P.Wf) (h2 : Q.Wf)
    (hd : Q.data = P.data) : P.EqualsCore Q = true := by
  rw [equalsCore_iff h1 h2]
  refine ⟨?_, ?_, ?_⟩
  · unfold HeaderParams.Length
    rw [hd]
  · intro k i hk
    obtain ⟨hi, hkey⟩ := (Wf.mapGet_iff h1 k i).mp hk
    refine ⟨(Wf.mapGet_iff h2 k i).mpr ⟨by rw [hd]; exact hi, by rw [hd]; exact hkey⟩, ?_⟩
    unfold HeaderParams.valAt
    rw [hd]
  · intro k i hk
    obtain ⟨hi, hkey⟩ := (Wf.mapGet_iff h2 k i).mp hk
    rw [hd] at hi hkey
    refine ⟨(Wf.mapGet_iff h1 k i).mpr ⟨hi, hkey⟩, ?_⟩
    unfold HeaderParams.valAt
    rw [hd]

/-- Wf plus per-pair character conditions for a rendered map. -/
def paramsWfOk (sep endc : Char) (P : HeaderParams) : Prop :=
  P.Wf ∧ ∀ p ∈ P.data, pairCharsOk sep endc p

instance (sep endc : Char) (P : HeaderParams) :
    Decidable (paramsWfOk sep endc P) := by
  unfold paramsWfOk
  infer_instance

def optOk (sep endc : Char) : Option HeaderParams → Prop
  | none => True
  | some P => paramsWfOk sep endc P

instance (sep endc : Char) : (po : Option HeaderParams) →
    Decidable (optOk sep endc po)
  | none => .isTrue trivial
  | some P => inferInstanceAs (Decidable (paramsWfOk sep endc P))

def optEmptyHP : Option HeaderParams → Prop
  | none => True
  | some P => P.Length = 0

instance : (po : Option HeaderParams) → Decidable (optEmptyHP po)
  | none => .isTrue trivial
  | some P => inferInstanceAs (Decidable (P.Length = 0))

/-- The render-faithful SIP URI values: rendering loses no information and
reparsing reads every field back.  Spells out the delimiter freedom the
renderer assumes: plain nonempty host, no `@`, `[`, `:` inside the
user/password/host texts, a password only next to a user, a port that fits
an int64, and parameter/header maps whose pairs obey `pairCharsOk` for
their separator and terminator. -/
def SIPURI.RenderFaithful (u : SIPURI) : Prop :=
  u.Scheme = .sip ∧
  u.HierarhicalSlashes = false ∧
  ¬ u.Host = [] ∧
  (∀ c ∈ u.Host,
    ¬ c = '[' ∧ ¬ c = ':' ∧ ¬ c = ';' ∧ ¬ c = '?' ∧ ¬ c = '@' ∧ ¬ c = '/') ∧
  (∀ c ∈ u.User, ¬ c = '[' ∧ ¬ c = '@' ∧ ¬ c = ':' ∧ ¬ c = '/') ∧
  (∀ c ∈ u.Password, ¬ c = '[' ∧ ¬ c = '@' ∧ ¬ c = ':') ∧
  (u.User = [] → u.Password = []) ∧
  0 ≤ u.Port ∧ u.Port ≤ 9223372036854775807 ∧
  optOk ';' '?' u.Params ∧
  optOk '&' (Char.ofNat 0) u.Headers

instance (u : SIPURI) : Decidable u.RenderFaithful := by
  unfold SIPURI.RenderFaithful
  infer_instance

/-- The render-faithful TEL URI values: a number of TEL characters free of
the parameter delimiters, parameters whose pairs obey `pairCharsOk` for
`;`/`0` (the literal terminator the Go call passes), and no headers, which
the renderer never writes. -/
def TELURI.RenderFaithful (u : TELURI) : Prop :=
  u.Scheme = .tel ∧
  u.HierarhicalSlashes = false ∧
  (∀ c ∈ u.Number, isTelChar c = true ∧ ¬ c = ';' ∧ ¬ c = '&') ∧
  optOk ';' '0' u.Params ∧
  optEmptyHP u.Headers

instance (u : TELURI) : Decidable u.RenderFaithful := by
  unfold TELURI.RenderFaithful
  infer_instance

def URI.RenderFaithful : URI → Prop
  | .sip u => u.RenderFaithful
  | .tel u => u.RenderFaithful

instance : (v : URI) → Decidable v.RenderFaithful
  | .sip u => inferInstanceAs (Decidable u.RenderFaithful)
  | .tel u => inferInstanceAs (Decidable u.RenderFaithful)

/-- `Equals` on optional maps, treating an absent map and an empty map
alike (an absent map carries no observable parameters). -/
def paramsEquiv : Option HeaderParams → Option HeaderParams → Bool
  | none, none => true
  | some a, some b => a.EqualsCore b
  | none, some b => decide (b.Length = 0)
  | some a, none => decide (a.Length = 0)

/-- Field-by-field equivalence of the claim: scheme, user, password, host,
port and `Equals`-equivalent parameter and header maps (number instead of
user/password/host/port on the TEL side). -/
def fieldEquiv : URI → URI → Bool
  | .sip a, .sip b =>
    decide (a.Scheme = b.Scheme) && decide (a.User = b.User) &&
    decide (a.Password = b.Password) && decide (a.Host = b.Host) &&
    decide (a.Port = b.Port) && paramsEquiv a.Params b.Params &&
    paramsEquiv a.Headers b.Headers
  | .tel a, .tel b =>
    decide (a.Scheme = b.Scheme) && decide (a.Number = b.Number) &&
    paramsEquiv a.Params b.Params && paramsEquiv a.Headers b.Headers
  | _, _ => false

def optFieldEquiv (v : URI) : Option URI → Bool
  | some w => fieldEquiv v w
  | none => false

theorem parseURIScheme_sip (body : Str) :
    parseURIScheme (str "sip" ++ ':' :: body) = .sip := by
  unfold parseURIScheme
  rw [show min (str "sip" ++ ':' :: body).length 4 = 4 from by
    rw [show str "sip" = ['s', 'i', 'p'] from rfl]
    simp]
  rfl

theorem parseURIScheme_tel (body : Str) :
    parseURIScheme (str "tel" ++ ':' :: body) = .tel := by
  unfold parseURIScheme
  rw [show min (str "tel" ++ ':' :: body).length 4 = 4 from by
    rw [show str "tel" = ['t', 'e', 'l'] from rfl]
    simp]
  rfl

theorem ParseURI_sip_dispatch (body : Str) :
    ParseURI (str "sip" ++ ':' :: body) =
      uriResult URI.sip
        (ParseSIPURI (str "sip" ++ ':' :: body) { Scheme := .sip }) := by
  unfold ParseURI
  rw [parseURIScheme_sip body]
  rw [if_neg (by
    rintro ⟨h1, h2⟩
    exact h2 rfl)]

theorem ParseURI_tel_dispatch (body : Str) :
    ParseURI (str "tel" ++ ':' :: body) =
      uriResult URI.tel
        (ParseTELURI (str "tel" ++ ':' :: body) { Scheme := .tel }) := by
  unfold ParseURI
  rw [parseURIScheme_tel body]
  rw [if_neg (by
    rintro ⟨h1, h2⟩
    rw [show str "tel" = ['t', 'e', 'l'] from rfl] at h1
    simp at h1
    omega)]

theorem telStateScheme_tel (uri : TELURI) (rest : Str) :
    telStateScheme uri (str "tel" ++ ':' :: rest) =
      telStateSlashes { uri with Scheme := .tel } rest := by
  unfold telStateScheme
  rw [if_neg (by simp [str])]
  rw [breakAt_append _ (str "tel") ':' rest (by decide) (by decide)]
  rfl

theorem digit_char_not (c : Char) (h : isDigitCh c = true) :
    ¬ c = ';' ∧ ¬ c = '?' ∧ ¬ c = '[' ∧ ¬ c = '@' := by
  refine ⟨?_, ?_, ?_, ?_⟩ <;> intro he <;> subst he <;> exact absurd h (by decide)

theorem natToDigits_chars (n : Nat) :
    ∀ c ∈ natToDigits n, isDigitCh c = true := by
  intro c hc
  have h := allDigits_natToDigits n
  unfold allDigits at h
  exact List.all_eq_true.mp h c hc

theorem uriStateUser_none (uri : SIPURI) (s : Str)
    (h : ∀ c ∈ s, ¬ c = '[' ∧ ¬ c = '@') :
    uriStateUser uri s = uriStateHost uri s := by
  unfold uriStateUser
  rw [breakAt_eq_none _ s (fun c hc => by
    simp only [Bool.or_eq_true, decide_eq_true_eq]
    rintro (h1 | h2)
    · exact (h c hc).1 h1
    · exact (h c hc).2 h2)]

theorem uriStateUser_user (uri : SIPURI) (user post : Str)
    (huser : ∀ c ∈ user, ¬ c = '[' ∧ ¬ c = '@' ∧ ¬ c = ':') :
    uriStateUser uri (user ++ '@' :: post) =
      uriStateHost { uri with User := user } post := by
  unfold uriStateUser
  rw [breakAt_append _ user '@' post (fun d hd => by
    simp only [Bool.or_eq_true, decide_eq_true_eq]
    rintro (h1 | h2)
    · exact (huser d hd).1 h1
    · exact (huser d hd).2.1 h2) (by decide)]
  dsimp only
  rw [if_neg (by decide),
    lastIdxOf_eq_none ':' user (fun hmem => (huser ':' hmem).2.2 rfl)]

theorem uriStateUser_userpw (uri : SIPURI) (user pw post : Str)
    (hune : ¬ user = [])
    (huser : ∀ c ∈ user, ¬ c = '[' ∧ ¬ c = '@' ∧ ¬ c = ':')
    (hpw : ∀ c ∈ pw, ¬ c = '[' ∧ ¬ c = '@' ∧ ¬ c = ':') :
    uriStateUser uri ((user ++ ':' :: pw) ++ '@' :: post) =
      uriStateHost { uri with User := user, Password := pw } post := by
  unfold uriStateUser
  rw [breakAt_append _ (user ++ ':' :: pw) '@' post (fun d hd => by
    simp only [Bool.or_eq_true, decide_eq_true_eq]
    rcases List.mem_append.mp hd with h1 | h2
    · rintro (ha | hb)
      · exact (huser d h1).1 ha
      · exact (huser d h1).2.1 hb
    · rcases List.mem_cons.mp h2 with h3 | h4
      · subst h3
        rintro (ha | hb)
        · exact absurd ha (by decide)
        · exact absurd hb (by decide)
      · rintro (ha | hb)
        · exact (hpw d h4).1 ha
        · exact (hpw d h4).2.1 hb) (by decide)]
  dsimp only
  rw [if_neg (by decide),
    lastIdxOf_append ':' user pw (fun hmem => (hpw ':' hmem).2.2 rfl)]
  dsimp only
  rw [if_pos (List.length_pos.mpr hune)]
  rw [take_append_le user (':' :: pw) user.length (Nat.le_refl _),
    List.take_length,
    drop_append_ge user (':' :: pw) (user.length + 1) (by omega),
    show user.length + 1 - user.length = 1 from by omega]
  rfl

theorem uriStateHost_none (uri : SIPURI) (s : Str)
    (h : ∀ c ∈ s, ¬ c = '[' ∧ ¬ c = ':' ∧ ¬ c = ';' ∧ ¬ c = '?') :
    uriStateHost uri s =
      uriStateUriParams
        { uri with Host := s, Wildcard := decide (s = str "*") } [] := by
  unfold uriStateHost
  rw [breakAt_eq_none _ s (fun c hc => by
    simp only [Bool.or_eq_true, decide_eq_true_eq]
    rintro (((h1 | h2) | h3) | h4)
    · exact (h c hc).1 h1
    · exact (h c hc).2.1 h2
    · exact (h c hc).2.2.1 h3
    · exact (h c hc).2.2.2 h4)]

theorem host_pred_free (host : Str)
    (hh : ∀ d ∈ host, ¬ d = '[' ∧ ¬ d = ':' ∧ ¬ d = ';' ∧ ¬ d = '?') :
    ∀ d ∈ host, ¬ (decide (d = '[') || decide (d = ':') || decide (d = ';') ||
      decide (d = '?')) = true := by
  intro d hd
  simp only [Bool.or_eq_true, decide_eq_true_eq]
  rintro (((h1 | h2) | h3) | h4)
  · exact (hh d hd).1 h1
  · exact (hh d hd).2.1 h2
  · exact (hh d hd).2.2.1 h3
  · exact (hh d hd).2.2.2 h4

theorem uriStateHost_port (uri : SIPURI) (host post : Str)
    (hh : ∀ d ∈ host, ¬ d = '[' ∧ ¬ d = ':' ∧ ¬ d = ';' ∧ ¬ d = '?') :
    uriStateHost uri (host ++ ':' :: post) =
      uriStatePort { uri with Host := host } post := by
  unfold uriStateHost
  rw [breakAt_append _ host ':' post (host_pred_free host hh) (by decide)]
  dsimp only
  rw [if_neg (by decide), if_pos rfl]

theorem uriStateHost_params (uri : SIPURI) (host post : Str)
    (hh : ∀ d ∈ host, ¬ d = '[' ∧ ¬ d = ':' ∧ ¬ d = ';' ∧ ¬ d = '?') :
    uriStateHost uri (host ++ ';' :: post) =
      uriStateUriParams { uri with Host := host } post := by
  unfold uriStateHost
  rw [breakAt_append _ host ';' post (host_pred_free host hh) (by decide)]
  dsimp only
  rw [if_neg (by decide), if_neg (by decide), if_pos rfl]

theorem uriStateHost_headers (uri : SIPURI) (host post : Str)
    (hh : ∀ d ∈ host, ¬ d = '[' ∧ ¬ d = ':' ∧ ¬ d = ';' ∧ ¬ d = '?') :
    uriStateHost uri (host ++ '?' :: post) =
      uriStateHeaders { uri with Host := host } post := by
  unfold uriStateHost
  rw [breakAt_append _ host '?' post (host_pred_free host hh) (by decide)]
  dsimp only
  rw [if_neg (by decide), if_neg (by decide), if_neg (by decide)]

theorem digits_pred_free (n : Nat) :
    ∀ c ∈ natToDigits n, ¬ (decide (c = ';') || decide (c = '?')) = true := by
  intro c hc
  simp only [Bool.or_eq_true, decide_eq_true_eq]
  have hd := digit_char_not c (natToDigits_chars n c hc)
  rintro (h1 | h2)
  · exact hd.1 h1
  · exact hd.2.1 h2

theorem uriStatePort_end (uri : SIPURI) (pnat : Nat)
    (hle : pnat ≤ 9223372036854775807) :
    uriStatePort uri (natToDigits pnat) =
      uriStateUriParams { uri with Port := (pnat : Int) } [] := by
  unfold uriStatePort
  rw [breakAt_eq_none _ _ (digits_pred_free pnat), atoi_natToDigits pnat hle]

theorem uriStatePort_params (uri : SIPURI) (pnat : Nat) (post : Str)
    (hle : pnat ≤ 9223372036854775807) :
    uriStatePort uri (natToDigits pnat ++ ';' :: post) =
      uriStateUriParams { uri with Port := (pnat : Int) } post := by
  unfold uriStatePort
  rw [breakAt_append _ (natToDigits pnat) ';' post (digits_pred_free pnat)
    (by decide)]
  dsimp only
  rw [atoi_natToDigits pnat hle]
  dsimp only
  rw [if_pos rfl]

theorem uriStatePort_headers (uri : SIPURI) (pnat : Nat) (post : Str)
    (hle : pnat ≤ 9223372036854775807) :
    uriStatePort uri (natToDigits pnat ++ '?' :: post) =
      uriStateHeaders { uri with Port := (pnat : Int) } post := by
  unfold uriStatePort
  rw [breakAt_append _ (natToDigits pnat) '?' post (digits_pred_free pnat)
    (by decide)]
  dsimp only
  rw [atoi_natToDigits pnat hle]
  dsimp only
  rw [if_neg (by decide)]

theorem UnmarshalParams_ToString_plain (sep endc : Char) (hne : ¬ sep = endc)
    (hs : ¬ '=' = sep) (he : ¬ '=' = endc) (P : HeaderParams)
    (hd : ¬ P.data = []) (hL : ∀ p ∈ P.data, pairCharsOk sep endc p) :
    UnmarshalParams (P.ToString sep) sep endc NewParams =
      ((P.ToString sep).length, NewParams.Add P.data) := by
  have h := UnmarshalParams_ToString sep endc hne hs he P hd hL [] (Or.inl rfl)
  rwa [List.append_nil] at h

theorem uriStateHeaders_run (uri : SIPURI) (H : HeaderParams)
    (hdH : ¬ H.data = [])
    (hLH : ∀ p ∈ H.data, pairCharsOk '&' (Char.ofNat 0) p) :
    uriStateHeaders uri (H.ToString '&') =
      ({ uri with Headers := some (NewParams.Add H.data) }, none) := by
  unfold uriStateHeaders
  dsimp only
  rw [UnmarshalParams_ToString_plain '&' (Char.ofNat 0) (by decide) (by decide)
    (by decide) H hdH hLH]

theorem uriStateUriParams_solo (uri : SIPURI) (P : HeaderParams)
    (hdP : ¬ P.data = []) (hLP : ∀ p ∈ P.data, pairCharsOk ';' '?' p) :
    uriStateUriParams uri (P.ToString ';') =
      ({ uri with Params := some (NewParams.Add P.data) }, none) := by
  have hnn := ToString_ne_nil ';' '?' P hdP hLP
  have hlen : 0 < (P.ToString ';').length := by
    cases hts : P.ToString ';' with
    | nil => exact absurd hts hnn
    | cons a t => simp
  unfold uriStateUriParams
  rw [if_neg (by omega)]
  dsimp only
  rw [UnmarshalParams_ToString_plain ';' '?' (by decide) (by decide) (by decide)
    P hdP hLP]
  dsimp only
  rw [if_pos rfl]
  rw [if_neg (by
    intro hq
    have hmem : (P.ToString ';').getD ((P.ToString ';').length - 1) ' ' ∈
        P.ToString ';' := by
      rw [List.getD_eq_getElem _ _ (by omega)]
      exact List.getElem_mem _
    exact (ToString_no ';' '?' P hLP ⟨by decide, by decide, by decide⟩
      (by decide) _ hmem).2.2 hq)]

theorem uriStateUriParams_hdr (uri : SIPURI) (P H : HeaderParams)
    (hdP : ¬ P.data = []) (hLP : ∀ p ∈ P.data, pairCharsOk ';' '?' p)
    (hdH : ¬ H.data = [])
    (hLH : ∀ p ∈ H.data, pairCharsOk '&' (Char.ofNat 0) p) :
    uriStateUriParams uri (P.ToString ';' ++ '?' :: H.ToString '&') =
      ({ uri with Params := some (NewParams.Add P.data),
                  Headers := some (NewParams.Add H.data) }, none) := by
  unfold uriStateUriParams
  rw [if_neg (by simp)]
  dsimp only
  rw [UnmarshalParams_ToString ';' '?' (by decide) (by decide) (by decide)
    P hdP hLP ('?' :: H.ToString '&') (Or.inr ⟨_, rfl⟩)]
  dsimp only
  have hn : ¬ (P.ToString ';').length =
      (P.ToString ';' ++ '?' :: H.ToString '&').length := by
    simp only [List.length_append, List.length_cons]
    omega
  rw [if_neg hn]
  rw [getD_append_len (P.ToString ';') '?' (H.ToString '&') ' ']
  rw [if_pos rfl]
  rw [drop_append_ge (P.ToString ';') ('?' :: H.ToString '&')
    ((P.ToString ';').length + 1) (by omega),
    show (P.ToString ';').length + 1 - (P.ToString ';').length = 1 from by omega]
  rw [show List.drop 1 ('?' :: H.ToString '&') = H.ToString '&' from rfl]
  rw [uriStateHeaders_run _ H hdH hLH]

/-- The parameter block of the rendered text. -/
def renderParams : Option HeaderParams → Str
  | some ps => if ps.Length > 0 then ';' :: ps.ToString ';' else []
  | none => []

/-- The header block of the rendered text. -/
def renderHeaders : Option HeaderParams → Str
  | some hs => if hs.Length > 0 then '?' :: hs.ToString '&' else []
  | none => []

/-- The rendered text after the host: optional port, parameters, headers. -/
def renderTail (u : SIPURI) : Str :=
  (if u.Port > 0 then ':' :: natToDigits u.Port.toNat else []) ++
  (renderParams u.Params ++ renderHeaders u.Headers)

theorem renderParams_empty (po : Option HeaderParams) (h : optEmptyHP po) :
    renderParams po = [] := by
  cases po with
  | none => rfl
  | some P =>
    unfold renderParams
    dsimp only
    rw [if_neg (by
      rw [show optEmptyHP (some P) = (P.Length = 0) from rfl] at h
      omega)]

theorem renderParams_some (P : HeaderParams) (hl : 0 < P.Length) :
    renderParams (some P) = ';' :: P.ToString ';' := by
  unfold renderParams
  dsimp only
  rw [if_pos hl]

theorem renderHeaders_empty (po : Option HeaderParams) (h : optEmptyHP po) :
    renderHeaders po = [] := by
  cases po with
  | none => rfl
  | some H =>
    unfold renderHeaders
    dsimp only
    rw [if_neg (by
      rw [show optEmptyHP (some H) = (H.Length = 0) from rfl] at h
      omega)]

theorem renderHeaders_some (H : HeaderParams) (hl : 0 < H.Length) :
    renderHeaders (some H) = '?' :: H.ToString '&' := by
  unfold renderHeaders
  dsimp only
  rw [if_pos hl]

theorem StringWrite_shape (u : SIPURI) (hS : u.Scheme = .sip)
    (hH : u.HierarhicalSlashes = false) :
    u.StringWrite = str "sip" ++ ':' ::
      ((if u.User ≠ [] then
          u.User ++ (if u.Password ≠ [] then ':' :: u.Password else []) ++ ['@']
        else []) ++
       (u.Host ++ renderTail u)) := by
  unfold SIPURI.StringWrite renderTail
  rw [hS, hH]
  rw [show uriSchemesStr .sip = str "sip" from rfl]
  rw [if_neg (by simp)]
  cases hP : u.Params <;> cases hH2 : u.Headers <;>
    simp [renderParams, renderHeaders, List.append_assoc]

theorem paramsEquiv_refl_build (P : HeaderParams) (hwf : P.Wf) :
    paramsEquiv (some P) (some (NewParams.Add P.data)) = true := by
  obtain ⟨hd, hw⟩ := Add_from_empty P.data hwf.2.2.1
  show P.EqualsCore (NewParams.Add P.data) = true
  exact equalsCore_of_data_eq hwf hw hd

theorem paramsEquiv_empty (po : Option HeaderParams) (h : optEmptyHP po) :
    paramsEquiv po (some NewParams) = true := by
  cases po with
  | none => decide
  | some P =>
    show P.EqualsCore NewParams = true
    unfold HeaderParams.EqualsCore
    rw [if_neg (by
      intro hne
      exact hne (by
        show P.Length = NewParams.Length
        rw [show optEmptyHP (some P) = (P.Length = 0) from rfl] at h
        rw [h]
        rfl))]
    rw [if_pos (by
      rw [show optEmptyHP (some P) = (P.Length = 0) from rfl] at h
      exact h)]

theorem paramsEquiv_none (po : Option HeaderParams) (h : optEmptyHP po) :
    paramsEquiv po none = true := by
  cases po with
  | none => rfl
  | some P =>
    show decide (P.Length = 0) = true
    rw [show optEmptyHP (some P) = (P.Length = 0) from rfl] at h
    simp [h]

theorem host_tail_run (u uriU : SIPURI)
    (hhost : ∀ c ∈ u.Host,
      ¬ c = '[' ∧ ¬ c = ':' ∧ ¬ c = ';' ∧ ¬ c = '?' ∧ ¬ c = '@' ∧ ¬ c = '/')
    (hp0 : 0 ≤ u.Port) (hpM : u.Port ≤ 9223372036854775807)
    (hPok : optOk ';' '?' u.Params) (hHok : optOk '&' (Char.ofNat 0) u.Headers)
    (hU0 : uriU.Port = 0) (hUP : uriU.Params = none) (hUH : uriU.Headers = none) :
    ∃ w, uriStateHost uriU (u.Host ++ renderTail u) = (w, none) ∧
      w.Scheme = uriU.Scheme ∧ w.User = uriU.User ∧ w.Password = uriU.Password ∧
      w.Host = u.Host ∧ w.Port = u.Port ∧
      paramsEquiv u.Params w.Params = true ∧
      paramsEquiv u.Headers w.Headers = true := by
  have hhost4 : ∀ c ∈ u.Host, ¬ c = '[' ∧ ¬ c = ':' ∧ ¬ c = ';' ∧ ¬ c = '?' :=
    fun c hc => ⟨(hhost c hc).1, (hhost c hc).2.1, (hhost c hc).2.2.1,
      (hhost c hc).2.2.2.1⟩
  have htn : u.Port.toNat ≤ 9223372036854775807 := by omega
  have hpv : ((u.Port.toNat : Int)) = u.Port := Int.toNat_of_nonneg hp0
  have hPsplit : (∃ P, u.Params = some P ∧
      renderParams u.Params = ';' :: P.ToString ';' ∧ ¬ P.data = [] ∧ P.Wf ∧
      (∀ p ∈ P.data, pairCharsOk ';' '?' p)) ∨
      (renderParams u.Params = [] ∧ optEmptyHP u.Params) := by
    cases hc : u.Params with
    | none => exact Or.inr ⟨rfl, trivial⟩
    | some P =>
      rw [hc] at hPok
      by_cases hl : 0 < P.Length
      · refine Or.inl ⟨P, rfl, renderParams_some P hl, ?_, hPok.1, hPok.2⟩
        intro hdnil
        unfold HeaderParams.Length at hl
        rw [hdnil] at hl
        simp at hl
      · exact Or.inr ⟨renderParams_empty (some P)
            (show P.Length = 0 from by omega),
          show P.Length = 0 from by omega⟩
  have hHsplit : (∃ H, u.Headers = some H ∧
      renderHeaders u.Headers = '?' :: H.ToString '&' ∧ ¬ H.data = [] ∧ H.Wf ∧
      (∀ p ∈ H.data, pairCharsOk '&' (Char.ofNat 0) p)) ∨
      (renderHeaders u.Headers = [] ∧ optEmptyHP u.Headers) := by
    cases hc : u.Headers with
    | none => exact Or.inr ⟨rfl, trivial⟩
    | some H =>
      rw [hc] at hHok
      by_cases hl : 0 < H.Length
      · refine Or.inl ⟨H, rfl, renderHeaders_some H hl, ?_, hHok.1, hHok.2⟩
        intro hdnil
        unfold HeaderParams.Length at hl
        rw [hdnil] at hl
        simp at hl
      · exact Or.inr ⟨renderHeaders_empty (some H)
            (show H.Length = 0 from by omega),
          show H.Length = 0 from by omega⟩
  unfold renderTail
  by_cases hpos : u.Port > 0
  · rw [if_pos hpos]
    rcases hPsplit with ⟨P, hPe, hPr, hPd, hPwf, hPcc⟩ | ⟨hPr, hPempty⟩
    · rw [hPr]
      rcases hHsplit with ⟨H, hHe, hHr, hHd, hHwf, hHcc⟩ | ⟨hHr, hHempty⟩
      · rw [hHr]
        rw [show (';' :: P.ToString ';') ++ '?' :: H.ToString '&' =
          ';' :: (P.ToString ';' ++ '?' :: H.ToString '&') from rfl]
        rw [show (':' :: natToDigits u.Port.toNat) ++
            (';' :: (P.ToString ';' ++ '?' :: H.ToString '&')) =
          ':' :: (natToDigits u.Port.toNat ++
            ';' :: (P.ToString ';' ++ '?' :: H.ToString '&')) from rfl]
        rw [uriStateHost_port uriU u.Host _ hhost4,
          uriStatePort_params _ u.Port.toNat _ htn,
          uriStateUriParams_hdr _ P H hPd hPcc hHd hHcc]
        refine ⟨_, rfl, rfl, rfl, rfl, rfl, hpv, ?_, ?_⟩
        · show paramsEquiv u.Params (some (NewParams.Add P.data)) = true
          rw [hPe]
          exact paramsEquiv_refl_build P hPwf
        · show paramsEquiv u.Headers (some (NewParams.Add H.data)) = true
          rw [hHe]
          exact paramsEquiv_refl_build H hHwf
      · rw [hHr, List.append_nil]
        rw [show (':' :: natToDigits u.Port.toNat) ++ (';' :: P.ToString ';') =
          ':' :: (natToDigits u.Port.toNat ++ ';' :: P.ToString ';') from rfl]
        rw [uriStateHost_port uriU u.Host _ hhost4,
          uriStatePort_params _ u.Port.toNat _ htn,
          uriStateUriParams_solo _ P hPd hPcc]
        refine ⟨_, rfl, rfl, rfl, rfl, rfl, hpv, ?_, ?_⟩
        · show paramsEquiv u.Params (some (NewParams.Add P.data)) = true
          rw [hPe]
          exact paramsEquiv_refl_build P hPwf
        · show paramsEquiv u.Headers uriU.Headers = true
          rw [hUH]
          exact paramsEquiv_none _ hHempty
    · rw [hPr, List.nil_append]
      rcases hHsplit with ⟨H, hHe, hHr, hHd, hHwf, hHcc⟩ | ⟨hHr, hHempty⟩
      · rw [hHr]
        rw [show (':' :: natToDigits u.Port.toNat) ++ ('?' :: H.ToString '&') =
          ':' :: (natToDigits u.Port.toNat ++ '?' :: H.ToString '&') from rfl]
        rw [uriStateHost_port uriU u.Host _ hhost4,
          uriStatePort_headers _ u.Port.toNat _ htn,
          uriStateHeaders_run _ H hHd hHcc]
        refine ⟨_, rfl, rfl, rfl, rfl, rfl, hpv, ?_, ?_⟩
        · show paramsEquiv u.Params uriU.Params = true
          rw [hUP]
          exact paramsEquiv_none _ hPempty
        · show paramsEquiv u.Headers (some (NewParams.Add H.data)) = true
          rw [hHe]
          exact paramsEquiv_refl_build H hHwf
      · rw [hHr, List.append_nil]
        rw [uriStateHost_port uriU u.Host _ hhost4,
          uriStatePort_end _ u.Port.toNat htn, uriStateUriParams_nil]
        refine ⟨_, rfl, rfl, rfl, rfl, rfl, hpv, ?_, ?_⟩
        · show paramsEquiv u.Params (some NewParams) = true
          exact paramsEquiv_empty _ hPempty
        · show paramsEquiv u.Headers (some NewParams) = true
          exact paramsEquiv_empty _ hHempty
  · have hz : u.Port = 0 := by omega
    rw [if_neg hpos, List.nil_append]
    rcases hPsplit with ⟨P, hPe, hPr, hPd, hPwf, hPcc⟩ | ⟨hPr, hPempty⟩
    · rw [hPr]
      rcases hHsplit with ⟨H, hHe, hHr, hHd, hHwf, hHcc⟩ | ⟨hHr, hHempty⟩
      · rw [hHr]
        rw [show (';' :: P.ToString ';') ++ '?' :: H.ToString '&' =
          ';' :: (P.ToString ';' ++ '?' :: H.ToString '&') from rfl]
        rw [uriStateHost_params uriU u.Host _ hhost4,
          uriStateUriParams_hdr _ P H hPd hPcc hHd hHcc]
        refine ⟨_, rfl, rfl, rfl, rfl, rfl, ?_, ?_, ?_⟩
        · show uriU.Port = u.Port
          rw [hU0, hz]
        · show paramsEquiv u.Params (some (NewParams.Add P.data)) = true
          rw [hPe]
          exact paramsEquiv_refl_build P hPwf
        · show paramsEquiv u.Headers (some (NewParams.Add H.data)) = true
          rw [hHe]
          exact paramsEquiv_refl_build H hHwf
      · rw [hHr, List.append_nil]
        rw [uriStateHost_params uriU u.Host _ hhost4,
          uriStateUriParams_solo _ P hPd hPcc]
        refine ⟨_, rfl, rfl, rfl, rfl, rfl, ?_, ?_, ?_⟩
        · show uriU.Port = u.Port
          rw [hU0, hz]
        · show paramsEquiv u.Params (some (NewParams.Add P.data)) = true
          rw [hPe]
          exact paramsEquiv_refl_build P hPwf
        · show paramsEquiv u.Headers uriU.Headers = true
          rw [hUH]
          exact paramsEquiv_none _ hHempty
    · rw [hPr, List.nil_append]
      rcases hHsplit with ⟨H, hHe, hHr, hHd, hHwf, hHcc⟩ | ⟨hHr, hHempty⟩
      · rw [hHr]
        rw [uriStateHost_headers uriU u.Host _ hhost4,
          uriStateHeaders_run _ H hHd hHcc]
        refine ⟨_, rfl, rfl, rfl, rfl, rfl, ?_, ?_, ?_⟩
        · show uriU.Port = u.Port
          rw [hU0, hz]
        · show paramsEquiv u.Params uriU.Params = true
          rw [hUP]
          exact paramsEquiv_none _ hPempty
        · show paramsEquiv u.Headers (some (NewParams.Add H.data)) = true
          rw [hHe]
          exact paramsEquiv_refl_build H hHwf
      · rw [hHr, List.append_nil]
        rw [uriStateHost_none uriU u.Host hhost4, uriStateUriParams_nil]
        refine ⟨_, rfl, rfl, rfl, rfl, rfl, ?_, ?_, ?_⟩
        · show uriU.Port = u.Port
          rw [hU0, hz]
        · show paramsEquiv u.Params (some NewParams) = true
          exact paramsEquiv_empty _ hPempty
        · show paramsEquiv u.Headers (some NewParams) = true
          exact paramsEquiv_empty _ hHempty

theorem renderTail_no (u : SIPURI) (hPok : optOk ';' '?' u.Params)
    (hHok : optOk '&' (Char.ofNat 0) u.Headers) :
    ∀ c ∈ renderTail u, ¬ c = '[' ∧ ¬ c = '@' := by
  intro c hc
  unfold renderTail at hc
  rcases List.mem_append.mp hc with h1 | h2
  · by_cases hpos : u.Port > 0
    · rw [if_pos hpos] at h1
      rcases List.mem_cons.mp h1 with h3 | h4
      · subst h3
        exact ⟨by decide, by decide⟩
      · have hd := digit_char_not c (natToDigits_chars _ c h4)
        exact ⟨hd.2.2.1, hd.2.2.2⟩
    · rw [if_neg hpos] at h1
      simp at h1
  · rcases List.mem_append.mp h2 with h3 | h4
    · cases hP : u.Params with
      | none =>
        rw [hP] at h3
        simp [renderParams] at h3
      | some P =>
        rw [hP] at h3 hPok
        by_cases hl : 0 < P.Length
        · rw [renderParams_some P hl] at h3
          rcases List.mem_cons.mp h3 with h5 | h6
          · subst h5
            exact ⟨by decide, by decide⟩
          · have hn := ToString_no ';' '?' P hPok.2
              ⟨by decide, by decide, by decide⟩ (by decide) c h6
            exact ⟨hn.1, hn.2.1⟩
        · rw [renderParams_empty (some P) (show P.Length = 0 from by omega)]
            at h3
          simp at h3
    · cases hH : u.Headers with
      | none =>
        rw [hH] at h4
        simp [renderHeaders] at h4
      | some H =>
        rw [hH] at h4 hHok
        by_cases hl : 0 < H.Length
        · rw [renderHeaders_some H hl] at h4
          rcases List.mem_cons.mp h4 with h5 | h6
          · subst h5
            exact ⟨by decide, by decide⟩
          · have hn := ToString_no '&' (Char.ofNat 0) H hHok.2
              ⟨by decide, by decide, by decide⟩ (by decide) c h6
            exact ⟨hn.1, hn.2.1⟩
        · rw [renderHeaders_empty (some H) (show H.Length = 0 from by omega)]
            at h4
          simp at h4

theorem sip_roundtrip (u : SIPURI) (h : u.RenderFaithful) :
    (ParseURI u.StringWrite).2 = none ∧
    optFieldEquiv (.sip u) (ParseURI u.StringWrite).1 = true := by
  obtain ⟨hS, hHi, hhne, hhost, huser, hpw, hupw, hp0, hpM, hPok, hHok⟩ := h
  rw [StringWrite_shape u hS hHi, ParseURI_sip_dispatch,
    ParseSIPURI_run _ _ (by simp [str]), uriStateScheme_sip]
  by_cases hune : u.User = []
  · rw [if_neg (not_not_intro hune), List.nil_append]
    cases hhc : u.Host with
    | nil => exact absurd hhc hhne
    | cons a hostt =>
      rw [show (a :: hostt) ++ renderTail u = a :: (hostt ++ renderTail u)
        from rfl]
      rw [uriStateSlashes_no_head _ a _
        ((hhost a (by rw [hhc]; exact List.mem_cons_self a hostt)).2.2.2.2.2)]
      rw [show a :: (hostt ++ renderTail u) = (a :: hostt) ++ renderTail u
        from rfl, ← hhc]
      rw [uriStateUser_none _ _ (fun c hc => by
        rcases List.mem_append.mp hc with h1 | h2
        · exact ⟨(hhost c h1).1, (hhost c h1).2.2.2.2.1⟩
        · exact renderTail_no u hPok hHok c h2)]
      dsimp only
      obtain ⟨w, hw, h1, h2, h3, h4, h5, h6, h7⟩ :=
        host_tail_run u ({ Scheme := .sip, HierarhicalSlashes := false } : SIPURI)
          hhost hp0 hpM hPok hHok rfl rfl rfl
      rw [hw]
      refine ⟨rfl, ?_⟩
      show fieldEquiv (.sip u) (.sip w) = true
      unfold fieldEquiv
      simp only [h1, h2, h3, h4, h5, h6, h7, Bool.and_eq_true,
        decide_eq_true_eq, and_true, true_and]
      exact ⟨⟨hS, hune⟩, hupw hune⟩
  · by_cases hpwe : u.Password = []
    · rw [if_pos (by exact hune), if_neg (not_not_intro hpwe), List.append_nil]
      rw [show (u.User ++ ['@']) ++ (u.Host ++ renderTail u) =
        u.User ++ '@' :: (u.Host ++ renderTail u) from by
        simp [List.append_assoc]]
      cases huc : u.User with
      | nil => exact absurd huc hune
      | cons a usert =>
        rw [show (a :: usert) ++ '@' :: (u.Host ++ renderTail u) =
          a :: (usert ++ '@' :: (u.Host ++ renderTail u)) from rfl]
        rw [uriStateSlashes_no_head _ a _
          ((huser a (by rw [huc]; exact List.mem_cons_self a usert)).2.2.2)]
        rw [show a :: (usert ++ '@' :: (u.Host ++ renderTail u)) =
          (a :: usert) ++ '@' :: (u.Host ++ renderTail u) from rfl, ← huc]
        rw [uriStateUser_user _ u.User _ (fun c hc =>
          ⟨(huser c hc).1, (huser c hc).2.1, (huser c hc).2.2.1⟩)]
        dsimp only
        obtain ⟨w, hw, h1, h2, h3, h4, h5, h6, h7⟩ :=
          host_tail_run u
            ({ Scheme := .sip, HierarhicalSlashes := false,
               User := u.User } : SIPURI)
            hhost hp0 hpM hPok hHok rfl rfl rfl
        rw [hw]
        refine ⟨rfl, ?_⟩
        show fieldEquiv (.sip u) (.sip w) = true
        unfold fieldEquiv
        simp only [h1, h2, h3, h4, h5, h6, h7, Bool.and_eq_true,
          decide_eq_true_eq, and_true, true_and]
        exact ⟨hS, hpwe⟩
    · rw [if_pos (by exact hune), if_pos (by exact hpwe)]
      rw [show (u.User ++ (':' :: u.Password) ++ ['@']) ++
          (u.Host ++ renderTail u) =
        (u.User ++ ':' :: u.Password) ++ '@' :: (u.Host ++ renderTail u)
        from by simp [List.append_assoc]]
      cases huc : u.User with
      | nil => exact absurd huc hune
      | cons a usert =>
        rw [show ((a :: usert) ++ ':' :: u.Password) ++
            '@' :: (u.Host ++ renderTail u) =
          a :: ((usert ++ ':' :: u.Password) ++
            '@' :: (u.Host ++ renderTail u)) from rfl]
        rw [uriStateSlashes_no_head _ a _
          ((huser a (by rw [huc]; exact List.mem_cons_self a usert)).2.2.2)]
        rw [show a :: ((usert ++ ':' :: u.Password) ++
            '@' :: (u.Host ++ renderTail u)) =
          ((a :: usert) ++ ':' :: u.Password) ++
            '@' :: (u.Host ++ renderTail u) from rfl, ← huc]
        rw [uriStateUser_userpw _ u.User u.Password _ hune
          (fun c hc => ⟨(huser c hc).1, (huser c hc).2.1, (huser c hc).2.2.1⟩)
          (fun c hc => ⟨(hpw c hc).1, (hpw c hc).2.1, (hpw c hc).2.2⟩)]
        dsimp only
        obtain ⟨w, hw, h1, h2, h3, h4, h5, h6, h7⟩ :=
          host_tail_run u
            ({ Scheme := .sip, HierarhicalSlashes := false, User := u.User,
               Password := u.Password } : SIPURI)
            hhost hp0 hpM hPok hHok rfl rfl rfl
        rw [hw]
        refine ⟨rfl, ?_⟩
        show fieldEquiv (.sip u) (.sip w) = true
        unfold fieldEquiv
        simp only [h1, h2, h3, h4, h5, h6, h7, Bool.and_eq_true,
          decide_eq_true_eq, and_true, true_and]
        exact hS

theorem ParseTELURI_run (s : Str) (uri : TELURI) (h : ¬ s.length = 0) :
    ParseTELURI s uri = telStateScheme uri s := by
  unfold ParseTELURI
  rw [if_neg h]

theorem telStateSlashes_no (uri : TELURI) (s : Str) (h : ¬ s.take 2 = str "//") :
    telStateSlashes uri s =
      telStateNumber { uri with HierarhicalSlashes := false } s := by
  unfold telStateSlashes cutSlashes
  rw [if_neg h]

theorem tel_pred_free (num : Str)
    (h : ∀ c ∈ num, isTelChar c = true ∧ ¬ c = ';' ∧ ¬ c = '&') :
    ∀ c ∈ num, ¬ (decide (c = ';') || decide (c = '&') || !isTelChar c) = true := by
  intro c hc
  simp only [Bool.or_eq_true, decide_eq_true_eq, Bool.not_eq_true']
  rintro ((h1 | h2) | h3)
  · exact (h c hc).2.1 h1
  · exact (h c hc).2.2 h2
  · rw [(h c hc).1] at h3
    exact absurd h3 (by decide)

theorem telStateNumber_none (uri : TELURI) (s : Str)
    (h : ∀ c ∈ s, isTelChar c = true ∧ ¬ c = ';' ∧ ¬ c = '&') :
    telStateNumber uri s = telStateParams { uri with Number := s } [] := by
  unfold telStateNumber
  rw [breakAt_eq_none _ s (tel_pred_free s h)]

theorem telStateNumber_params (uri : TELURI) (num post : Str)
    (h : ∀ c ∈ num, isTelChar c = true ∧ ¬ c = ';' ∧ ¬ c = '&') :
    telStateNumber uri (num ++ ';' :: post) =
      telStateParams { uri with Number := num } post := by
  unfold telStateNumber
  rw [breakAt_append _ num ';' post (tel_pred_free num h) (by decide)]
  dsimp only
  rw [if_pos (Or.inl rfl)]

theorem telStateParams_nil (uri : TELURI) :
    telStateParams uri [] = ({ uri with Params := some NewParams }, none) := rfl

theorem telStateParams_run (uri : TELURI) (P : HeaderParams)
    (hdP : ¬ P.data = []) (hLP : ∀ p ∈ P.data, pairCharsOk ';' '0' p) :
    telStateParams uri (P.ToString ';') =
      ({ uri with Params := some (NewParams.Add P.data) }, none) := by
  have hnn := ToString_ne_nil ';' '0' P hdP hLP
  unfold telStateParams
  rw [if_neg (by
    intro h0
    exact hnn (List.length_eq_zero.mp h0))]
  dsimp only
  rw [UnmarshalParams_ToString_plain ';' '0' (by decide) (by decide) (by decide)
    P hdP hLP]

theorem telStringWrite_shape (u : TELURI) (hH : u.HierarhicalSlashes = false) :
    u.StringWrite = str "tel" ++ ':' :: (u.Number ++ renderParams u.Params) := by
  unfold TELURI.StringWrite
  rw [hH]
  cases hP : u.Params <;> simp [renderParams, List.append_assoc]

theorem tel_roundtrip (u : TELURI) (h : u.RenderFaithful) :
    (ParseURI u.StringWrite).2 = none ∧
    optFieldEquiv (.tel u) (ParseURI u.StringWrite).1 = true := by
  obtain ⟨hS, hHi, hnum, hPok, hHe⟩ := h
  have hPsplit : (∃ P, u.Params = some P ∧
      renderParams u.Params = ';' :: P.ToString ';' ∧ ¬ P.data = [] ∧ P.Wf ∧
      (∀ p ∈ P.data, pairCharsOk ';' '0' p)) ∨
      (renderParams u.Params = [] ∧ optEmptyHP u.Params) := by
    cases hc : u.Params with
    | none => exact Or.inr ⟨rfl, trivial⟩
    | some P =>
      rw [hc] at hPok
      by_cases hl : 0 < P.Length
      · refine Or.inl ⟨P, rfl, renderParams_some P hl, ?_, hPok.1, hPok.2⟩
        intro hdnil
        unfold HeaderParams.Length at hl
        rw [hdnil] at hl
        simp at hl
      · exact Or.inr ⟨renderParams_empty (some P)
            (show P.Length = 0 from by omega),
          show P.Length = 0 from by omega⟩
  have hhead : ∀ a t, u.Number ++ renderParams u.Params = a :: t →
      ¬ a = '/' := by
    intro a t heq
    cases hn : u.Number with
    | nil =>
      rw [hn, List.nil_append] at heq
      rcases hPsplit with ⟨P, hPe, hPr, _, _, _⟩ | ⟨hPr, _⟩
      · rw [hPr] at heq
        injection heq with h1 _
        rw [← h1]
        decide
      · rw [hPr] at heq
        exact absurd heq (List.noConfusion)
    | cons b nt =>
      rw [hn] at heq
      rw [show (b :: nt) ++ renderParams u.Params =
        b :: (nt ++ renderParams u.Params) from rfl] at heq
      injection heq with h1 _
      intro ha
      have hb := (hnum b (by rw [hn]; exact List.mem_cons_self b nt)).1
      rw [h1, ha] at hb
      exact absurd hb (by decide)
  rw [telStringWrite_shape u hHi, ParseURI_tel_dispatch,
    ParseTELURI_run _ _ (by simp [str]), telStateScheme_tel]
  rw [telStateSlashes_no _ _ (by
    intro heq
    cases hbody : u.Number ++ renderParams u.Params with
    | nil =>
      rw [hbody] at heq
      exact absurd heq (by decide)
    | cons a t =>
      rw [hbody] at heq
      have ha : a = '/' := by
        rw [show List.take 2 (a :: t) = a :: List.take 1 t from rfl,
          show str "//" = '/' :: '/' :: [] from rfl] at heq
        injection heq
      exact hhead a t hbody ha)]
  rcases hPsplit with ⟨P, hPe, hPr, hPd, hPwf, hPcc⟩ | ⟨hPr, hPempty⟩
  · rw [hPr, telStateNumber_params _ u.Number _ hnum,
      telStateParams_run _ P hPd hPcc]
    dsimp only
    refine ⟨rfl, ?_⟩
    show fieldEquiv (.tel u) (.tel _) = true
    unfold fieldEquiv
    simp only [Bool.and_eq_true, decide_eq_true_eq, and_true, true_and]
    refine ⟨⟨hS, ?_⟩, ?_⟩
    · show paramsEquiv u.Params (some (NewParams.Add P.data)) = true
      rw [hPe]
      exact paramsEquiv_refl_build P hPwf
    · show paramsEquiv u.Headers none = true
      exact paramsEquiv_none _ hHe
  · rw [hPr, List.append_nil, telStateNumber_none _ u.Number hnum,
      telStateParams_nil]
    dsimp only
    refine ⟨rfl, ?_⟩
    show fieldEquiv (.tel u) (.tel _) = true
    unfold fieldEquiv
    simp only [Bool.and_eq_true, decide_eq_true_eq, and_true, true_and]
    refine ⟨⟨hS, ?_⟩, ?_⟩
    · show paramsEquiv u.Params (some NewParams) = true
      exact paramsEquiv_empty _ hPempty
    · show paramsEquiv u.Headers none = true
      exact paramsEquiv_none _ hHe

/-- The concrete parsed value used by the round-trip witness. -/
def vWitness : URI :=
  .sip { Scheme := .sip, User := str "alice", Password := str "pw",
         Host := str "atlanta.com", Port := 5060,
         Params := some ⟨[(str "transport", 0)],
                         [⟨str "transport", str "tcp"⟩]⟩,
         Headers := some ⟨[(str "subject", 0)],
                          [⟨str "subject", str "hi"⟩]⟩ }

/-- C1 counterexample: `sip:host:-1` is syntactically valid (the parse
succeeds, `Atoi` accepts the negative port), but the renderer prints a
positive port only, so the reparse of the rendering reads port `0` and the
field-by-field equivalence of the claim fails on the port. -/
theorem c1_roundtrip_counterexample :
    ParseURI (str "sip:host:-1") =
      (some (.sip { Scheme := .sip, Host := str "host", Port := -1,
                    Params := some NewParams, Headers := some NewParams }),
        none) ∧
    (URI.sip { Scheme := .sip, Host := str "host", Port := -1,
               Params := some NewParams,
               Headers := some NewParams }).StringWrite = str "sip:host" ∧
    optFieldEquiv
      (.sip { Scheme := .sip, Host := str "host", Port := -1,
              Params := some NewParams, Headers := some NewParams })
      (ParseURI (str "sip:host")).1 = false := by
  refine ⟨by decide, by decide, by decide⟩

/-- C1 (amended): for every URI value `v` returned by a successful
`ParseURI` that is moreover render-faithful (`URI.RenderFaithful`: scheme
`sip`/`tel` as parsed, no hierarchical slashes, plain nonempty host free of
delimiter characters, user/password free of `@ [ : /`, a password only
next to a user, a port in `[0, 2^63)`, parameter and header maps
well-formed with keys/values free of their separator, terminator, `=` in
keys, `@` and `[`; on the TEL side a number of TEL characters and no
headers), rendering `v` with `StringWrite` and parsing the text again
succeeds and yields a value field-by-field equivalent to `v`: equal
scheme, user, password, host and port (number for TEL), and
`Equals`-equivalent parameter and header maps, an absent map counting as
an empty one.  The render-faithful condition is necessary in this
strength: `c1_roundtrip_counterexample` shows a successfully parsed URI
(negative port) whose reparse is not field-equivalent. -/
theorem c1_render_roundtrip (s : Str) (v : URI)
    (hparse : ParseURI s = (some v, none)) (hv : v.RenderFaithful) :
    (ParseURI v.StringWrite).2 = none ∧
    optFieldEquiv v (ParseURI v.StringWrite).1 = true := by
  cases v with
  | sip u => exact sip_roundtrip u hv
  | tel u => exact tel_roundtrip u hv

theorem c1_render_roundtrip_witness :
    ParseURI (str "sip:alice:pw@atlanta.com:5060;transport=tcp?subject=hi") =
      (some vWitness, none) ∧
    URI.RenderFaithful vWitness ∧
    ((ParseURI vWitness.StringWrite).2 = none ∧
      optFieldEquiv vWitness (ParseURI vWitness.StringWrite).1 = true) :=
  ⟨by decide, by decide,
    c1_render_roundtrip
      (str "sip:alice:pw@atlanta.com:5060;transport=tcp?subject=hi")
      vWitness (by decide) (by decide)⟩
